import Mathlib

/-!
Verification of the project storage layer (`packages/shared/src/projects/storage.ts`).

The store operates on a workspace directory on disk.  We shallowly embed the
filesystem as a tree rooted at the workspace root (`workspaceRootPath` in the
source); all paths are lists of path components, so the TypeScript
`join(root, 'projects', slug)` becomes the component list `["projects", slug]`.
Fallible filesystem calls (`mkdirSync`, `writeFileSync`, `unlinkSync`,
`renameSync`) are embedded as `Option`-returning operations: `none` stands for
a thrown filesystem error.  `Date.now()` is passed in as an explicit `Nat`
parameter wherever the source reads the clock, and `randomUUID()` as an
explicit `String` parameter.  `config.json` contents are embedded as a stored
`ProjectConfig` value (`FileData.config`): `JSON.stringify` on this record
shape is injective and `JSON.parse` inverts it, so the serialize/parse round
trip is modelled as the identity; `FileData.text` stands for any file content
that is not a stored config (for `config.json` such content is treated as
failing to parse).
-/

namespace ProjectStore

/-- `ProjectConfig` from `packages/shared/src/projects/types.ts`.
Optional TypeScript fields are embedded as `Option`. -/
structure ProjectConfig where
  id : String
  name : String
  slug : String
  description : Option String
  guidelines : Option String
  createdAt : Nat
  updatedAt : Nat
  enabledSourceSlugs : Option (List String)
deriving Repr, DecidableEq

/-- `CreateProjectInput` from `types.ts`. -/
structure CreateProjectInput where
  name : String
  description : Option String
  guidelines : Option String
  enabledSourceSlugs : Option (List String)
deriving Repr, DecidableEq

/-- `ProjectSummary` from `types.ts`. -/
structure ProjectSummary where
  id : String
  slug : String
  name : String
  description : Option String
  sessionCount : Nat
  fileCount : Nat
  createdAt : Nat
  updatedAt : Nat
deriving Repr, DecidableEq

/-- The argument type of `updateProject`:
`Partial<Pick<ProjectConfig, 'name' | 'description' | 'guidelines' | 'enabledSourceSlugs'>>`.
`none` means the property is absent from the update object. -/
structure ProjectUpdates where
  name : Option String
  description : Option String
  guidelines : Option String
  enabledSourceSlugs : Option (List String)
deriving Repr, DecidableEq

/-- Contents of a regular file: either opaque text or a stored
`ProjectConfig` (the parsed form of the pretty-printed JSON the store writes
to `config.json`). -/
inductive FileData where
  | text (s : String)
  | config (c : ProjectConfig)
deriving Repr, DecidableEq

mutual
/-- A filesystem node: a regular file, a directory, or an entry that is
neither (symbolic link, socket, ...; `Dirent.isFile()` and
`Dirent.isDirectory()` are both false on it). -/
inductive Entry where
  | file (data : FileData)
  | dir (children : Listing)
  | other
deriving Repr, DecidableEq

/-- The ordered child list of a directory (readdir order). -/
inductive Listing where
  | nil
  | cons (name : String) (entry : Entry) (rest : Listing)
deriving Repr, DecidableEq
end

/-- Look a name up in a directory listing (first match). -/
def lookupName : Listing → String → Option Entry
  | Listing.nil, _ => none
  | Listing.cons n e rest, target => if n = target then some e else lookupName rest target

/-- Replace the entry under `target` if present, otherwise append it. -/
def upsert : Listing → String → Entry → Listing
  | Listing.nil, target, v => Listing.cons target v Listing.nil
  | Listing.cons n e rest, target, v =>
    if n = target then Listing.cons n v rest else Listing.cons n e (upsert rest target v)

/-- Remove the entry under `target`.  Names in a real directory are unique,
so removing every occurrence coincides with removing the one entry. -/
def removeName : Listing → String → Listing
  | Listing.nil, _ => Listing.nil
  | Listing.cons n e rest, target =>
    if n = target then removeName rest target else Listing.cons n e (removeName rest target)

/-- Resolve a path from an entry.  Every intermediate component must be a
directory. -/
def getEntry : Entry → List String → Option Entry
  | e, [] => some e
  | Entry.dir cs, n :: p =>
    (match lookupName cs n with
     | some c => getEntry c p
     | none => none)
  | _, _ :: _ => none

/-- `existsSync` on the embedded filesystem. -/
def existsE (fs : Entry) (p : List String) : Bool := (getEntry fs p).isSome

/-- `mkdirSync(path, { recursive: true })`: create every missing directory
along the path; fails (`none`) when a component already exists as something
other than a directory. -/
def mkdirp : Entry → List String → Option Entry
  | Entry.dir cs, [] => some (Entry.dir cs)
  | Entry.dir cs, n :: p =>
    (match lookupName cs n with
     | some c => (mkdirp c p).map fun c' => Entry.dir (upsert cs n c')
     | none => (mkdirp (Entry.dir Listing.nil) p).map fun c' => Entry.dir (upsert cs n c'))
  | _, _ => none

/-- Place an entry at a path whose parent chain already exists as
directories (the final step of `renameSync`). -/
def insertEntry : Entry → List String → Entry → Option Entry
  | Entry.dir cs, [n], v => some (Entry.dir (upsert cs n v))
  | Entry.dir cs, n :: p, v =>
    (match lookupName cs n with
     | some c => (insertEntry c p v).map fun c' => Entry.dir (upsert cs n c')
     | none => none)
  | _, _, _ => none

/-- Remove the entry at a path, whatever its kind (the source-removal step of
`renameSync`). -/
def removeEntry : Entry → List String → Option Entry
  | Entry.dir cs, [n] =>
    (match lookupName cs n with
     | some _ => some (Entry.dir (removeName cs n))
     | none => none)
  | Entry.dir cs, n :: p =>
    (match lookupName cs n with
     | some c => (removeEntry c p).map fun c' => Entry.dir (upsert cs n c')
     | none => none)
  | _, _ => none

/-- `writeFileSync`: overwrite or create a regular file; fails when the
target is an existing directory or the parent chain is missing or not made of
directories. -/
def writeFile (fs : Entry) (p : List String) (d : FileData) : Option Entry :=
  match getEntry fs p with
  | some (Entry.dir _) => none
  | _ => insertEntry fs p (Entry.file d)

/-- `unlinkSync`: remove a regular (or special) file; fails on directories
and on missing targets. -/
def removeFile (fs : Entry) (p : List String) : Option Entry :=
  match getEntry fs p with
  | some (Entry.dir _) => none
  | some _ => removeEntry fs p
  | none => none

/-! ### Path utilities (storage.ts lines 39-59)

Paths are component lists relative to the workspace root, so the `join`
calls of the source become list appends. -/

/-- `getWorkspaceProjectsPath`: `join(workspaceRootPath, 'projects')`. -/
def getWorkspaceProjectsPath : List String := ["projects"]

/-- `getProjectPath`: `join(getWorkspaceProjectsPath(root), projectSlug)`. -/
def getProjectPath (projectSlug : String) : List String :=
  getWorkspaceProjectsPath ++ [projectSlug]

/-- `getProjectFilesPath`: `join(getProjectPath(root, projectSlug), 'files')`. -/
def getProjectFilesPath (projectSlug : String) : List String :=
  getProjectPath projectSlug ++ ["files"]

/-- Path of a project's `config.json`. -/
def configPathOf (projectSlug : String) : List String :=
  getProjectPath projectSlug ++ ["config.json"]

/-- Path of a project's `guidelines.md`. -/
def guidelinesPathOf (projectSlug : String) : List String :=
  getProjectPath projectSlug ++ ["guidelines.md"]

/-! ### Slug generation (storage.ts lines 68-99) -/

/-- A character that survives the regex `[^a-z0-9]+` after `toLowerCase()`. -/
def isLowerAlnum (c : Char) : Bool :=
  ('a' ≤ c && c ≤ 'z') || ('0' ≤ c && c ≤ '9')

/-- `replace(/[^a-z0-9]+/g, '-')`: collapse every maximal run of
non-alphanumeric characters into a single `'-'`.  The flag records whether the
previous character belonged to such a run. -/
def collapseRuns : Bool → List Char → List Char
  | _, [] => []
  | inRun, c :: cs =>
    if isLowerAlnum c then c :: collapseRuns false cs
    else if inRun then collapseRuns true cs
    else '-' :: collapseRuns true cs

/-- Drop a single leading `'-'` (half of `replace(/^-|-$/g, '')`). -/
def dropLeadDash : List Char → List Char
  | [] => []
  | c :: cs => if c = '-' then cs else c :: cs

/-- `replace(/^-|-$/g, '')`: remove one leading and one trailing dash. -/
def stripDashes (l : List Char) : List Char :=
  (dropLeadDash (dropLeadDash l).reverse).reverse

/-- `generateSlug` (storage.ts lines 68-80): lowercase, collapse
non-alphanumeric runs to `'-'`, strip one dash from either end, truncate to 50
characters, and fall back to `"project"` when empty.  `toLowerCase()` is
embedded as `Char.toLower`; the two agree on every character the following
regex can keep, since after lowercasing only `[a-z0-9]` survives. -/
def generateSlug (name : String) : String :=
  let slug := (stripDashes (collapseRuns false (name.data.map Char.toLower))).take 50
  if slug.isEmpty then "project" else String.mk slug

/-- Length of the longest name in a directory listing. -/
def maxNameLen : Listing → Nat
  | Listing.nil => 0
  | Listing.cons n _ rest => max n.length (maxNameLen rest)

/-- The `while (existsSync(join(projectsDir, slug + '-' + counter))) counter++`
loop of `generateUniqueProjectSlug`, run with explicit fuel.  The fuel chosen
in `generateUniqueProjectSlug` is large enough that the loop always exits at
an unused name (`probeCounter_free`), so the bounded loop agrees with the
unbounded source loop. -/
def probeCounter (fs : Entry) (slug : String) : Nat → Nat → Nat
  | counter, 0 => counter
  | counter, fuel + 1 =>
    if existsE fs (getWorkspaceProjectsPath ++ [slug ++ "-" ++ Nat.repr counter])
    then probeCounter fs slug (counter + 1) fuel
    else counter

/-- Longest child name of the `projects` directory (used only to size the
fuel of `probeCounter`). -/
def projectsMaxNameLen (fs : Entry) : Nat :=
  match getEntry fs getWorkspaceProjectsPath with
  | some (Entry.dir cs) => maxNameLen cs
  | _ => 0

/-- `generateUniqueProjectSlug` (storage.ts lines 85-99): use the base slug
when its folder does not exist, otherwise probe `slug-2`, `slug-3`, ... until
an unused folder name is found. -/
def generateUniqueProjectSlug (name : String) (fs : Entry) : String :=
  let slug := generateSlug name
  if !existsE fs (getWorkspaceProjectsPath ++ [slug]) then slug
  else
    let counter := probeCounter fs slug 2 (10 ^ (projectsMaxNameLen fs + 1) + 1)
    slug ++ "-" ++ Nat.repr counter

/-! ### Config operations (storage.ts lines 110-139) -/

/-- `loadProjectConfig` (lines 110-119): read and parse
`{project}/config.json`; `none` when the file is absent, is not a regular
file, or does not hold a stored config (parse failure). -/
def loadProjectConfig (fs : Entry) (projectSlug : String) : Option ProjectConfig :=
  match getEntry fs (configPathOf projectSlug) with
  | some (Entry.file (FileData.config c)) => some c
  | _ => none

/-- `saveProjectConfig` (lines 127-139): create the project folder when
missing, stamp `updatedAt = now`, overwrite `config.json`.  `now` is the
`Date.now()` read at line 135. -/
def saveProjectConfig (fs : Entry) (projectSlug : String) (config : ProjectConfig)
    (now : Nat) : Option Entry :=
  (if existsE fs (getProjectPath projectSlug) then some fs
   else mkdirp fs (getProjectPath projectSlug)).bind fun fs1 =>
    writeFile fs1 (getProjectPath projectSlug ++ ["config.json"])
      (FileData.config { config with updatedAt := now })

/-! ### Load operations (storage.ts lines 148-199) -/

/-- Body of `countFiles` (lines 148-164) on a directory listing: count
regular files, recurse into directories, skip everything else.  Hidden names
are NOT skipped here. -/
def countFilesIn : Listing → Nat
  | Listing.nil => 0
  | Listing.cons _ (Entry.file _) rest => 1 + countFilesIn rest
  | Listing.cons _ (Entry.dir cs) rest => countFilesIn cs + countFilesIn rest
  | Listing.cons _ Entry.other rest => countFilesIn rest

/-- `countFiles(dirPath)` (lines 148-164): `0` when the path is missing or
not a readable directory (`readdirSync` throws and the catch returns 0). -/
def countFiles (fs : Entry) (dirPath : List String) : Nat :=
  match getEntry fs dirPath with
  | some (Entry.dir cs) => countFilesIn cs
  | _ => 0

/-- `loadProject` (lines 171-173): alias for `loadProjectConfig`. -/
def loadProject (fs : Entry) (projectSlug : String) : Option ProjectConfig :=
  loadProjectConfig fs projectSlug

/-- `getProjectSummary` (lines 181-199). -/
def getProjectSummary (fs : Entry) (projectSlug : String) (sessionCount : Nat) :
    Option ProjectSummary :=
  (loadProjectConfig fs projectSlug).map fun config =>
    { id := config.id
      slug := config.slug
      name := config.name
      description := config.description
      sessionCount := sessionCount
      fileCount := countFiles fs (getProjectFilesPath projectSlug)
      createdAt := config.createdAt
      updatedAt := config.updatedAt }

/-! ### File tree listing (storage.ts lines 341-404) -/

mutual
/-- `ProjectFile` (lines 341-347): `path` is the component list relative to
the project files root; `size` is carried by files, `children` by
directories. -/
inductive ProjectFile where
  | fileEntry (name : String) (path : List String) (size : Nat)
  | dirEntry (name : String) (path : List String) (children : PFList)
deriving Repr, DecidableEq

/-- A list of `ProjectFile` nodes. -/
inductive PFList where
  | nil
  | cons (f : ProjectFile) (rest : PFList)
deriving Repr, DecidableEq
end

/-- Name of a listed node. -/
def pfName : ProjectFile → String
  | ProjectFile.fileEntry n _ _ => n
  | ProjectFile.dirEntry n _ _ => n

/-- Whether a listed node is a directory. -/
def pfIsDir : ProjectFile → Bool
  | ProjectFile.fileEntry _ _ _ => false
  | ProjectFile.dirEntry _ _ _ => true

/-- The sort comparator of lines 395-398: directories first, then ascending
by name.  `localeCompare` is embedded as code-point order on the name. -/
def pfBefore (a b : ProjectFile) : Bool :=
  if pfIsDir a != pfIsDir b then pfIsDir a else decide (pfName a ≤ pfName b)

/-- Stable insertion into a sorted `PFList`. -/
def insertPF (f : ProjectFile) : PFList → PFList
  | PFList.nil => PFList.cons f PFList.nil
  | PFList.cons g rest =>
    if pfBefore f g then PFList.cons f (PFList.cons g rest)
    else PFList.cons g (insertPF f rest)

/-- `files.sort(comparator)` (lines 395-398), embedded as a stable
comparison sort over `pfBefore`. -/
def sortPF : PFList → PFList
  | PFList.nil => PFList.nil
  | PFList.cons f rest => insertPF f (sortPF rest)

/-- `entry.name.startsWith('.')`. -/
def startsDot (n : String) : Bool :=
  match n.data with
  | '.' :: _ => true
  | _ => false

/-- `statSync(fullPath).size`, in bytes of the stored text.  A stored config
has no meaningful byte size in the model (store operations never place one
under `files/`). -/
def dataSize : FileData → Nat
  | FileData.text s => s.utf8ByteSize
  | FileData.config _ => 0

/-- The readdir loop of `listProjectFiles` (lines 366-392) over a directory
listing: skip hidden names, list directories (children via the recursive,
sorted call) and regular files (with size), and skip any other entry kind.
`subP` is the relative path of the directory being listed. -/
def collect : Listing → List String → PFList
  | Listing.nil, _ => PFList.nil
  | Listing.cons n e rest, subP =>
    if startsDot n then collect rest subP
    else
      match e with
      | Entry.dir cs =>
        PFList.cons (ProjectFile.dirEntry n (subP ++ [n]) (sortPF (collect cs (subP ++ [n]))))
          (collect rest subP)
      | Entry.file d =>
        PFList.cons (ProjectFile.fileEntry n (subP ++ [n]) (dataSize d)) (collect rest subP)
      | Entry.other => collect rest subP

/-- `listProjectFiles` (lines 355-404): list the directory at
`files/{subPath}`; `[]` when it is missing or not a directory (the
`readdirSync` of a non-directory throws into the catch). -/
def listProjectFiles (fs : Entry) (projectSlug : String) (subP : List String) : PFList :=
  match getEntry fs (getProjectFilesPath projectSlug ++ subP) with
  | some (Entry.dir cs) => sortPF (collect cs subP)
  | _ => PFList.nil

/-! ### Create / update (storage.ts lines 241-315) -/

/-- `createProject` (lines 241-280).  `now` is the `Date.now()` of line 245
and `uuid` the `randomUUID()` of line 256, so the new id is
`"proj_" ++ uuid.take 8` (`slice(0, 8)`).  Uncaught filesystem errors
propagate as `none`. -/
def createProject (fs : Entry) (input : CreateProjectInput) (now : Nat) (uuid : String) :
    Option (ProjectConfig × Entry) :=
  let projectsDir := getWorkspaceProjectsPath
  let fs0 := if existsE fs projectsDir then some fs else mkdirp fs projectsDir
  fs0.bind fun fs0 =>
    let slug := generateUniqueProjectSlug input.name fs0
    let config : ProjectConfig :=
      { id := "proj_" ++ uuid.take 8
        name := input.name
        slug := slug
        description := input.description
        guidelines := input.guidelines
        createdAt := now
        updatedAt := now
        enabledSourceSlugs := input.enabledSourceSlugs }
    (mkdirp fs0 (projectsDir ++ [slug])).bind fun fs1 =>
      (mkdirp fs1 (projectsDir ++ [slug, "files"])).bind fun fs2 =>
        (writeFile fs2 (projectsDir ++ [slug, "config.json"]) (FileData.config config)).bind
          fun fs3 =>
            match input.guidelines with
            | some g =>
              if g = "" then some (config, fs3)
              else
                (writeFile fs3 (projectsDir ++ [slug, "guidelines.md"]) (FileData.text g)).map
                  fun fs4 => (config, fs4)
            | none => some (config, fs3)

/-- The merged object `{ ...config, ...updates, updatedAt: now }` of
`updateProject` (lines 296-300); `updates` only carries the four recognized
fields, so `id`, `slug` and `createdAt` come from `config` alone. -/
def applyUpdates (config : ProjectConfig) (u : ProjectUpdates) (now : Nat) : ProjectConfig :=
  { id := config.id
    name := match u.name with | some v => v | none => config.name
    slug := config.slug
    description := match u.description with | some v => some v | none => config.description
    guidelines := match u.guidelines with | some v => some v | none => config.guidelines
    createdAt := config.createdAt
    updatedAt := now
    enabledSourceSlugs :=
      match u.enabledSourceSlugs with | some v => some v | none => config.enabledSourceSlugs }

/-- `updateProject` (lines 288-315).  `now` is the `Date.now()` of line 299
and `nowS` the one read inside `saveProjectConfig`; the result is
`some (none, fs)` when the project does not exist (`null` return, no write),
`some (some updated, fs')` on success, and `none` when a filesystem error
propagates.  When `updates.guidelines` is present, a truthy (non-empty) value
is written to `guidelines.md` and a falsy one deletes that file if present. -/
def updateProject (fs : Entry) (projectSlug : String) (u : ProjectUpdates)
    (now nowS : Nat) : Option (Option ProjectConfig × Entry) :=
  match loadProjectConfig fs projectSlug with
  | none => some (none, fs)
  | some config =>
    let updated := applyUpdates config u now
    (saveProjectConfig fs projectSlug updated nowS).bind fun fs1 =>
      match u.guidelines with
      | none => some (some updated, fs1)
      | some g =>
        if g = "" then
          if existsE fs1 (guidelinesPathOf projectSlug) then
            (removeFile fs1 (guidelinesPathOf projectSlug)).map fun fs2 => (some updated, fs2)
          else some (some updated, fs1)
        else
          (writeFile fs1 (guidelinesPathOf projectSlug) (FileData.text g)).map
            fun fs2 => (some updated, fs2)

/-! ### Rename (storage.ts lines 511-534) -/

/-- `renameSync(fullOldPath, fullNewPath)`: move the entry at `oldP` (any
kind) to `newP`, whose parent chain must already exist as directories;
`none` when the move is impossible (for example the source is missing or the
destination lies inside the source). -/
def renameEntry (fs : Entry) (oldP newP : List String) : Option Entry :=
  (getEntry fs oldP).bind fun e =>
    (removeEntry fs oldP).bind fun fs' =>
      insertEntry fs' newP e

/-- `renameProjectFile` (lines 511-534): `false` when the source is missing
or the destination exists (no overwrite, filesystem untouched); otherwise
create the destination's parent directories and rename.  A failure after the
`mkdirSync` (the catch at line 531) also returns `false`, but the directories
already created remain, exactly as on disk. -/
def renameProjectFile (fs : Entry) (projectSlug : String) (oldP newP : List String) :
    Bool × Entry :=
  let filesRoot := getProjectFilesPath projectSlug
  let fullOld := filesRoot ++ oldP
  let fullNew := filesRoot ++ newP
  if !existsE fs fullOld then (false, fs)
  else if existsE fs fullNew then (false, fs)
  else
    match mkdirp fs fullNew.dropLast with
    | none => (false, fs)
    | some fs1 =>
      match renameEntry fs1 fullOld fullNew with
      | some fs2 => (true, fs2)
      | none => (false, fs1)

/-! ### Lemmas about directory listings -/

theorem lookupName_upsert_self : ∀ (cs : Listing) (n : String) (v : Entry),
    lookupName (upsert cs n v) n = some v
  | Listing.nil, n, v => by simp [upsert, lookupName]
  | Listing.cons m e rest, n, v => by
    by_cases h : m = n
    · simp [upsert, lookupName, h]
    · simp [upsert, lookupName, h, lookupName_upsert_self rest n v]

theorem lookupName_upsert_ne : ∀ (cs : Listing) (n m : String) (v : Entry), m ≠ n →
    lookupName (upsert cs n v) m = lookupName cs m
  | Listing.nil, n, m, v, h => by simp [upsert, lookupName, Ne.symm h]
  | Listing.cons k e rest, n, m, v, h => by
    by_cases hk : k = n
    · subst hk
      simp [upsert, lookupName, Ne.symm h]
    · simp [upsert, lookupName, hk, lookupName_upsert_ne rest n m v h]

theorem lookupName_removeName_self : ∀ (cs : Listing) (n : String),
    lookupName (removeName cs n) n = none
  | Listing.nil, n => by simp [removeName, lookupName]
  | Listing.cons m e rest, n => by
    by_cases h : m = n
    · simp [removeName, h, lookupName_removeName_self rest n]
    · simp [removeName, lookupName, h, lookupName_removeName_self rest n]

theorem lookupName_removeName_ne : ∀ (cs : Listing) (n m : String), m ≠ n →
    lookupName (removeName cs n) m = lookupName cs m
  | Listing.nil, n, m, h => by simp [removeName]
  | Listing.cons k e rest, n, m, h => by
    by_cases hk : k = n
    · subst hk
      simp [removeName, lookupName, Ne.symm h, lookupName_removeName_ne rest k m h]
    · simp [removeName, lookupName, hk, lookupName_removeName_ne rest n m h]

/-! ### Lemmas about path resolution -/

theorem getEntry_append (p q : List String) : ∀ e : Entry,
    getEntry e (p ++ q) = (getEntry e p).bind fun e' => getEntry e' q := by
  induction p with
  | nil => intro e; simp [getEntry]
  | cons n p ih =>
    intro e
    match e with
    | Entry.file d => simp [getEntry]
    | Entry.other => simp [getEntry]
    | Entry.dir cs =>
      simp only [List.cons_append, getEntry]
      match lookupName cs n with
      | some c => simpa using ih c
      | none => simp

/-- Two paths diverge: at the first position where they differ, both still
have a component.  Exactly one of `divergeB p q`, `q = p ++ r`, `p = q ++ r`
holds (`divergeB_cases`). -/
def divergeB : List String → List String → Bool
  | a :: p, b :: q => if a = b then divergeB p q else true
  | _, _ => false

theorem divergeB_symm : ∀ p q, divergeB p q = divergeB q p := by
  intro p
  induction p with
  | nil => intro q; cases q <;> simp [divergeB]
  | cons a p ih =>
    intro q
    cases q with
    | nil => simp [divergeB]
    | cons b q =>
      by_cases h : a = b
      · subst h; simp [divergeB, ih]
      · simp [divergeB, h, Ne.symm h]

theorem divergeB_cases : ∀ p q : List String,
    divergeB p q = true ∨ (∃ r, q = p ++ r) ∨ (∃ r, p = q ++ r) := by
  intro p
  induction p with
  | nil => intro q; exact Or.inr (Or.inl ⟨q, rfl⟩)
  | cons a p ih =>
    intro q
    cases q with
    | nil => exact Or.inr (Or.inr ⟨a :: p, rfl⟩)
    | cons b q =>
      by_cases h : a = b
      · subst h
        rcases ih q with hd | ⟨r, rfl⟩ | ⟨r, rfl⟩
        · exact Or.inl (by simp [divergeB, hd])
        · exact Or.inr (Or.inl ⟨r, rfl⟩)
        · exact Or.inr (Or.inr ⟨r, rfl⟩)
      · exact Or.inl (by simp [divergeB, h])

/-! ### Effect of each filesystem operation at its own path -/

theorem mkdirp_spec : ∀ (p : List String) (fs fs' : Entry), mkdirp fs p = some fs' →
    ∃ cs, getEntry fs' p = some (Entry.dir cs) := by
  intro p
  induction p with
  | nil =>
    intro fs fs' h
    cases fs with
    | dir cs =>
      simp [mkdirp] at h
      exact ⟨cs, by simp [getEntry, ← h]⟩
    | file d => simp [mkdirp] at h
    | other => simp [mkdirp] at h
  | cons n p ih =>
    intro fs fs' h
    cases fs with
    | file d => simp [mkdirp] at h
    | other => simp [mkdirp] at h
    | dir cs =>
      simp only [mkdirp] at h
      cases hl : lookupName cs n with
      | some c =>
        rw [hl] at h
        dsimp only at h
        cases hm : mkdirp c p with
        | none => rw [hm] at h; simp at h
        | some c' =>
          rw [hm] at h
          simp only [Option.map_some', Option.some.injEq] at h
          obtain ⟨cs2, hc⟩ := ih c c' hm
          exact ⟨cs2, by simp [← h, getEntry, lookupName_upsert_self, hc]⟩
      | none =>
        rw [hl] at h
        dsimp only at h
        cases hm : mkdirp (Entry.dir Listing.nil) p with
        | none => rw [hm] at h; simp at h
        | some c' =>
          rw [hm] at h
          simp only [Option.map_some', Option.some.injEq] at h
          obtain ⟨cs2, hc⟩ := ih _ c' hm
          exact ⟨cs2, by simp [← h, getEntry, lookupName_upsert_self, hc]⟩

theorem insertEntry_spec : ∀ (p : List String) (fs fs' v : Entry),
    insertEntry fs p v = some fs' → getEntry fs' p = some v := by
  intro p
  induction p with
  | nil =>
    intro fs fs' v h
    cases fs <;> simp [insertEntry] at h
  | cons n p ih =>
    intro fs fs' v h
    cases fs with
    | file d => simp [insertEntry] at h
    | other => simp [insertEntry] at h
    | dir cs =>
      cases p with
      | nil =>
        simp only [insertEntry, Option.some.injEq] at h
        simp [← h, getEntry, lookupName_upsert_self]
      | cons m q =>
        simp only [insertEntry] at h
        cases hl : lookupName cs n with
        | some c =>
          rw [hl] at h
          dsimp only at h
          cases hi : insertEntry c (m :: q) v with
          | none => rw [hi] at h; simp at h
          | some c' =>
            rw [hi] at h
            simp only [Option.map_some', Option.some.injEq] at h
            simp [← h, getEntry, lookupName_upsert_self, ih c c' v hi]
        | none => rw [hl] at h; simp at h

theorem removeEntry_spec : ∀ (p : List String) (fs fs' : Entry),
    removeEntry fs p = some fs' → getEntry fs' p = none := by
  intro p
  induction p with
  | nil =>
    intro fs fs' h
    cases fs <;> simp [removeEntry] at h
  | cons n p ih =>
    intro fs fs' h
    cases fs with
    | file d => simp [removeEntry] at h
    | other => simp [removeEntry] at h
    | dir cs =>
      cases p with
      | nil =>
        simp only [removeEntry] at h
        cases hl : lookupName cs n with
        | some c =>
          rw [hl] at h
          simp only [Option.some.injEq] at h
          simp [← h, getEntry, lookupName_removeName_self]
        | none => rw [hl] at h; simp at h
      | cons m q =>
        simp only [removeEntry] at h
        cases hl : lookupName cs n with
        | some c =>
          rw [hl] at h
          dsimp only at h
          cases hr : removeEntry c (m :: q) with
          | none => rw [hr] at h; simp at h
          | some c' =>
            rw [hr] at h
            simp only [Option.map_some', Option.some.injEq] at h
            simp [← h, getEntry, lookupName_upsert_self, ih c c' hr]
        | none => rw [hl] at h; simp at h

theorem writeFile_spec (fs fs' : Entry) (p : List String) (d : FileData)
    (h : writeFile fs p d = some fs') : getEntry fs' p = some (Entry.file d) := by
  unfold writeFile at h
  cases hg : getEntry fs p with
  | none => rw [hg] at h; exact insertEntry_spec p fs fs' _ h
  | some e =>
    rw [hg] at h
    cases e with
    | dir cs => simp at h
    | file d2 => exact insertEntry_spec p fs fs' _ h
    | other => exact insertEntry_spec p fs fs' _ h

theorem removeFile_spec (fs fs' : Entry) (p : List String)
    (h : removeFile fs p = some fs') : getEntry fs' p = none := by
  unfold removeFile at h
  cases hg : getEntry fs p with
  | none => rw [hg] at h; simp at h
  | some e =>
    rw [hg] at h
    cases e with
    | dir cs => simp at h
    | file d2 => exact removeEntry_spec p fs fs' h
    | other => exact removeEntry_spec p fs fs' h

/-! ### Frame lemmas: each operation leaves unrelated paths alone -/

/-- `insertEntry` along `p ++ q` with `q ≠ []` requires the entry at `p` to
exist. -/
theorem insertEntry_sub : ∀ (p q : List String) (fs fs' v : Entry), q ≠ [] →
    insertEntry fs (p ++ q) v = some fs' → (getEntry fs p).isSome = true := by
  intro p
  induction p with
  | nil => intro q fs fs' v hq h; simp [getEntry]
  | cons n p ih =>
    intro q fs fs' v hq h
    cases fs with
    | file d => simp [insertEntry] at h
    | other => simp [insertEntry] at h
    | dir cs =>
      have hne : p ++ q ≠ [] := by
        intro hc
        exact hq (List.append_eq_nil.mp hc).2
      rw [List.cons_append] at h
      cases hpq : p ++ q with
      | nil => exact absurd hpq hne
      | cons m r =>
        rw [hpq] at h
        simp only [insertEntry] at h
        cases hl : lookupName cs n with
        | some c =>
          rw [hl] at h
          dsimp only at h
          cases hi : insertEntry c (m :: r) v with
          | none => rw [hi] at h; simp at h
          | some c' =>
            have := ih q c c' v hq (by rw [hpq]; exact hi)
            simp [getEntry, hl, this]
        | none => rw [hl] at h; simp at h

theorem insertEntry_preserve : ∀ (p q : List String) (fs fs' v : Entry),
    divergeB p q = true → insertEntry fs p v = some fs' →
    getEntry fs' q = getEntry fs q := by
  intro p
  induction p with
  | nil => intro q fs fs' v hd; simp [divergeB] at hd
  | cons a p ih =>
    intro q fs fs' v hd h
    cases q with
    | nil => simp [divergeB] at hd
    | cons b q =>
      cases fs with
      | file d => simp [insertEntry] at h
      | other => simp [insertEntry] at h
      | dir cs =>
        by_cases hab : a = b
        · subst hab
          simp only [divergeB, if_pos rfl] at hd
          cases p with
          | nil => simp [divergeB] at hd
          | cons m r =>
            simp only [insertEntry] at h
            cases hl : lookupName cs a with
            | some c =>
              rw [hl] at h
              dsimp only at h
              cases hi : insertEntry c (m :: r) v with
              | none => rw [hi] at h; simp at h
              | some c' =>
                rw [hi] at h
                simp only [Option.map_some', Option.some.injEq] at h
                rw [← h]
                simp [getEntry, lookupName_upsert_self, hl, ih q c c' v hd hi]
            | none => rw [hl] at h; simp at h
        · -- the two paths part at the first component: only child `a` changes
          have hfs' : ∃ cs', fs' = Entry.dir cs' ∧
              lookupName cs' b = lookupName cs b := by
            cases p with
            | nil =>
              simp only [insertEntry, Option.some.injEq] at h
              exact ⟨upsert cs a v, h.symm, lookupName_upsert_ne cs a b v (Ne.symm hab)⟩
            | cons m r =>
              simp only [insertEntry] at h
              cases hl : lookupName cs a with
              | some c =>
                rw [hl] at h
                dsimp only at h
                cases hi : insertEntry c (m :: r) v with
                | none => rw [hi] at h; simp at h
                | some c' =>
                  rw [hi] at h
                  simp only [Option.map_some', Option.some.injEq] at h
                  exact ⟨upsert cs a c', h.symm, lookupName_upsert_ne cs a b c' (Ne.symm hab)⟩
              | none => rw [hl] at h; simp at h
          obtain ⟨cs', rfl, hlb⟩ := hfs'
          simp [getEntry, hlb]

theorem removeEntry_preserve : ∀ (p q : List String) (fs fs' : Entry),
    divergeB p q = true → removeEntry fs p = some fs' →
    getEntry fs' q = getEntry fs q := by
  intro p
  induction p with
  | nil => intro q fs fs' hd; simp [divergeB] at hd
  | cons a p ih =>
    intro q fs fs' hd h
    cases q with
    | nil => simp [divergeB] at hd
    | cons b q =>
      cases fs with
      | file d => simp [removeEntry] at h
      | other => simp [removeEntry] at h
      | dir cs =>
        by_cases hab : a = b
        · subst hab
          simp only [divergeB, if_pos rfl] at hd
          cases p with
          | nil => simp [divergeB] at hd
          | cons m r =>
            simp only [removeEntry] at h
            cases hl : lookupName cs a with
            | some c =>
              rw [hl] at h
              dsimp only at h
              cases hi : removeEntry c (m :: r) with
              | none => rw [hi] at h; simp at h
              | some c' =>
                rw [hi] at h
                simp only [Option.map_some', Option.some.injEq] at h
                rw [← h]
                simp [getEntry, lookupName_upsert_self, hl, ih q c c' hd hi]
            | none => rw [hl] at h; simp at h
        · have hfs' : ∃ cs', fs' = Entry.dir cs' ∧
              lookupName cs' b = lookupName cs b := by
            cases p with
            | nil =>
              simp only [removeEntry] at h
              cases hl : lookupName cs a with
              | some c =>
                rw [hl] at h
                simp only [Option.some.injEq] at h
                exact ⟨removeName cs a, h.symm, lookupName_removeName_ne cs a b (Ne.symm hab)⟩
              | none => rw [hl] at h; simp at h
            | cons m r =>
              simp only [removeEntry] at h
              cases hl : lookupName cs a with
              | some c =>
                rw [hl] at h
                dsimp only at h
                cases hi : removeEntry c (m :: r) with
                | none => rw [hi] at h; simp at h
                | some c' =>
                  rw [hi] at h
                  simp only [Option.map_some', Option.some.injEq] at h
                  exact ⟨upsert cs a c', h.symm, lookupName_upsert_ne cs a b c' (Ne.symm hab)⟩
              | none => rw [hl] at h; simp at h
          obtain ⟨cs', rfl, hlb⟩ := hfs'
          simp [getEntry, hlb]

theorem mkdirp_preserve : ∀ (q : List String) (fs fs' : Entry) (p : List String),
    mkdirp fs q = some fs' → (∀ r, q ≠ p ++ r) → getEntry fs' p = getEntry fs p := by
  intro q
  induction q with
  | nil =>
    intro fs fs' p h _
    cases fs with
    | dir cs => simp only [mkdirp, Option.some.injEq] at h; rw [← h]
    | file d => simp [mkdirp] at h
    | other => simp [mkdirp] at h
  | cons n q ih =>
    intro fs fs' p h hpre
    cases fs with
    | file d => simp [mkdirp] at h
    | other => simp [mkdirp] at h
    | dir cs =>
      simp only [mkdirp] at h
      cases p with
      | nil => exact absurd rfl (hpre (n :: q))
      | cons m p =>
        by_cases hnm : n = m
        · subst hnm
          have hpre' : ∀ r, q ≠ p ++ r := fun r hc => hpre r (by rw [hc]; rfl)
          cases hl : lookupName cs n with
          | some c =>
            rw [hl] at h
            dsimp only at h
            cases hm : mkdirp c q with
            | none => rw [hm] at h; simp at h
            | some c' =>
              rw [hm] at h
              simp only [Option.map_some', Option.some.injEq] at h
              rw [← h]
              simp [getEntry, lookupName_upsert_self, hl, ih c c' p hm hpre']
          | none =>
            rw [hl] at h
            dsimp only at h
            cases hm : mkdirp (Entry.dir Listing.nil) q with
            | none => rw [hm] at h; simp at h
            | some c' =>
              rw [hm] at h
              simp only [Option.map_some', Option.some.injEq] at h
              rw [← h]
              have hnil : getEntry c' p = getEntry (Entry.dir Listing.nil) p :=
                ih _ c' p hm hpre'
              cases p with
              | nil => exact absurd rfl (hpre' q)
              | cons k r =>
                simp [getEntry, lookupName_upsert_self, hl, hnil, lookupName]
        · have hfs' : ∃ cs', fs' = Entry.dir cs' ∧
              lookupName cs' m = lookupName cs m := by
            cases hl : lookupName cs n with
            | some c =>
              rw [hl] at h
              dsimp only at h
              cases hmk : mkdirp c q with
              | none => rw [hmk] at h; simp at h
              | some c' =>
                rw [hmk] at h
                simp only [Option.map_some', Option.some.injEq] at h
                exact ⟨upsert cs n c', h.symm,
                  lookupName_upsert_ne cs n m c' (fun hc => hnm (hc ▸ rfl))⟩
            | none =>
              rw [hl] at h
              dsimp only at h
              cases hmk : mkdirp (Entry.dir Listing.nil) q with
              | none => rw [hmk] at h; simp at h
              | some c' =>
                rw [hmk] at h
                simp only [Option.map_some', Option.some.injEq] at h
                exact ⟨upsert cs n c', h.symm,
                  lookupName_upsert_ne cs n m c' (fun hc => hnm (hc ▸ rfl))⟩
          obtain ⟨cs', rfl, hlb⟩ := hfs'
          simp [getEntry, hlb]

theorem writeFile_preserve (p q : List String) (fs fs' : Entry) (d : FileData)
    (hd : divergeB p q = true) (h : writeFile fs p d = some fs') :
    getEntry fs' q = getEntry fs q := by
  unfold writeFile at h
  cases hg : getEntry fs p with
  | none => rw [hg] at h; exact insertEntry_preserve p q fs fs' _ hd h
  | some e =>
    rw [hg] at h
    cases e with
    | dir cs => simp at h
    | file d2 => exact insertEntry_preserve p q fs fs' _ hd h
    | other => exact insertEntry_preserve p q fs fs' _ hd h

theorem removeFile_preserve (p q : List String) (fs fs' : Entry)
    (hd : divergeB p q = true) (h : removeFile fs p = some fs') :
    getEntry fs' q = getEntry fs q := by
  unfold removeFile at h
  cases hg : getEntry fs p with
  | none => rw [hg] at h; simp at h
  | some e =>
    rw [hg] at h
    cases e with
    | dir cs => simp at h
    | file d2 => exact removeEntry_preserve p q fs fs' hd h
    | other => exact removeEntry_preserve p q fs fs' hd h

/-! ### Decimal representation bounds

The probing loop of `generateUniqueProjectSlug` terminates because a large
enough counter produces a candidate name longer than every existing folder
name.  That needs a lower bound on the number of digits of `Nat.repr`. -/

theorem toDigitsCore_bound : ∀ (f n : Nat) (l : List Char), n < f →
    ∃ k, 0 < k ∧ (Nat.toDigitsCore 10 f n l).length = l.length + k ∧ n < 10 ^ k := by
  intro f
  induction f with
  | zero => intro n l h; omega
  | succ f ih =>
    intro n l h
    by_cases h0 : n / 10 = 0
    · refine ⟨1, by omega, ?_, ?_⟩
      · simp [Nat.toDigitsCore, h0]
      · have : n < 10 := by omega
        simpa using this
    · have hlt : n / 10 < f := by omega
      obtain ⟨k, hk, hlen, hbound⟩ := ih (n / 10) (Nat.digitChar (n % 10) :: l) hlt
      refine ⟨k + 1, by omega, ?_, ?_⟩
      · rw [show Nat.toDigitsCore 10 (f + 1) n l
            = Nat.toDigitsCore 10 f (n / 10) (Nat.digitChar (n % 10) :: l) from by
          simp [Nat.toDigitsCore, h0]]
        rw [hlen]
        simp only [List.length_cons]
        omega
      · have h1 : n < (n / 10 + 1) * 10 := by omega
        have h2 : (n / 10 + 1) * 10 ≤ 10 ^ k * 10 :=
          Nat.mul_le_mul_right 10 hbound
        calc n < (n / 10 + 1) * 10 := h1
          _ ≤ 10 ^ k * 10 := h2
          _ = 10 ^ (k + 1) := (pow_succ 10 k).symm

theorem repr_digits_bound (n : Nat) :
    0 < (Nat.repr n).length ∧ n < 10 ^ (Nat.repr n).length := by
  obtain ⟨k, hk, hlen, hb⟩ := toDigitsCore_bound (n + 1) n [] (Nat.lt_succ_self n)
  have hr : (Nat.repr n).length = (Nat.toDigitsCore 10 (n + 1) n []).length := rfl
  rw [hr, hlen]
  simpa using ⟨hk, hb⟩

/-! ### Freshness of the probed slug -/

theorem lookupName_length : ∀ (cs : Listing) (n : String) (e : Entry),
    lookupName cs n = some e → n.length ≤ maxNameLen cs
  | Listing.nil, n, e, h => by simp [lookupName] at h
  | Listing.cons m v rest, n, e, h => by
    simp only [lookupName] at h
    by_cases hm : m = n
    · subst hm
      simp [maxNameLen]
    · rw [if_neg hm] at h
      have := lookupName_length rest n e h
      simp [maxNameLen]
      omega

/-- A candidate name longer than every child of `projects` is unused. -/
theorem existsE_child_long (fs : Entry) (cand : String)
    (h : projectsMaxNameLen fs < cand.length) :
    existsE fs (getWorkspaceProjectsPath ++ [cand]) = false := by
  unfold existsE
  rw [show getWorkspaceProjectsPath ++ [cand] = ["projects"] ++ [cand] from rfl,
    getEntry_append]
  cases hg : getEntry fs ["projects"] with
  | none => simp
  | some e =>
    cases e with
    | file d => simp [getEntry]
    | other => simp [getEntry]
    | dir cs =>
      simp only [Option.some_bind]
      cases hl : lookupName cs cand with
      | some c =>
        have hle := lookupName_length cs cand c hl
        have hlen : projectsMaxNameLen fs = maxNameLen cs := by
          unfold projectsMaxNameLen getWorkspaceProjectsPath
          rw [hg]
        omega
      | none => simp [getEntry, hl]

theorem probeCounter_free (fs : Entry) (slug : String) : ∀ (fuel counter : Nat),
    (∃ k, counter ≤ k ∧ k < counter + fuel ∧
      existsE fs (getWorkspaceProjectsPath ++ [slug ++ "-" ++ Nat.repr k]) = false) →
    existsE fs
      (getWorkspaceProjectsPath ++ [slug ++ "-" ++ Nat.repr (probeCounter fs slug counter fuel)])
      = false := by
  intro fuel
  induction fuel with
  | zero =>
    intro counter h
    obtain ⟨k, h1, h2, _⟩ := h
    omega
  | succ fuel ih =>
    intro counter h
    obtain ⟨k, h1, h2, hk⟩ := h
    by_cases hc :
        existsE fs (getWorkspaceProjectsPath ++ [slug ++ "-" ++ Nat.repr counter]) = true
    · rw [show probeCounter fs slug counter (fuel + 1)
          = probeCounter fs slug (counter + 1) fuel from by simp [probeCounter, hc]]
      apply ih
      refine ⟨k, ?_, by omega, hk⟩
      rcases Nat.eq_or_lt_of_le h1 with rfl | hlt
      · rw [hk] at hc; simp at hc
      · omega
    · have hf : existsE fs (getWorkspaceProjectsPath ++ [slug ++ "-" ++ Nat.repr counter])
          = false := by
        simpa using hc
      rw [show probeCounter fs slug counter (fuel + 1) = counter from by
        simp [probeCounter, hf]]
      exact hf

theorem generateUniqueProjectSlug_free (fs : Entry) (name : String) :
    existsE fs (getWorkspaceProjectsPath ++ [generateUniqueProjectSlug name fs]) = false := by
  unfold generateUniqueProjectSlug
  by_cases hb : existsE fs (getWorkspaceProjectsPath ++ [generateSlug name]) = true
  · simp only [hb, Bool.not_true, Bool.false_eq_true, if_false]
    apply probeCounter_free
    refine ⟨10 ^ (projectsMaxNameLen fs + 1), ?_, by omega, ?_⟩
    · have h10 : 10 ^ 1 ≤ 10 ^ (projectsMaxNameLen fs + 1) :=
        Nat.pow_le_pow_right (by norm_num) (by omega)
      simp only [pow_one] at h10
      omega
    · apply existsE_child_long
      have h1 := (repr_digits_bound (10 ^ (projectsMaxNameLen fs + 1))).2
      have h2 : projectsMaxNameLen fs + 1
          < (Nat.repr (10 ^ (projectsMaxNameLen fs + 1))).length :=
        (Nat.pow_lt_pow_iff_right (by norm_num)).mp h1
      rw [String.length_append, String.length_append]
      omega
  · have hf : existsE fs (getWorkspaceProjectsPath ++ [generateSlug name]) = false := by
      simpa using hb
    simp [hf]

/-! ### Character-level properties of `generateSlug` -/

/-- A character the slug may contain: `[a-z0-9-]`. -/
def isSlugChar (c : Char) : Bool := isLowerAlnum c || c = '-'

/-- `name` contains an (ASCII) alphanumeric character at this position:
after `toLowerCase()` it survives the `[^a-z0-9]` regex. -/
def isAlnumChar (c : Char) : Bool := isLowerAlnum (Char.toLower c)

theorem isSlugChar_not_upper (c : Char) (h : isSlugChar c = true) : c.isUpper = false := by
  by_contra hne
  have hu : c.isUpper = true := by
    revert hne; cases c.isUpper <;> simp
  simp only [Char.isUpper, Bool.and_eq_true, decide_eq_true_eq] at hu
  obtain ⟨h65, h90⟩ := hu
  have hAc : ('A' : Char) ≤ c := Char.le_def.mpr h65
  have hcZ : c ≤ ('Z' : Char) := Char.le_def.mpr h90
  simp only [isSlugChar, isLowerAlnum, Bool.or_eq_true, Bool.and_eq_true,
    decide_eq_true_eq] at h
  rcases h with (⟨h1, _⟩ | ⟨_, h2⟩) | rfl
  · exact absurd (le_trans h1 hcZ) (by decide)
  · exact absurd (le_trans hAc h2) (by decide)
  · exact absurd h65 (by decide)

theorem collapseRuns_chars : ∀ (cs : List Char) (b : Bool) (c : Char),
    c ∈ collapseRuns b cs → isSlugChar c = true := by
  intro cs
  induction cs with
  | nil => intro b c h; simp [collapseRuns] at h
  | cons d cs ih =>
    intro b c h
    by_cases hd : isLowerAlnum d = true
    · rw [show collapseRuns b (d :: cs) = d :: collapseRuns false cs from by
        simp [collapseRuns, hd]] at h
      rcases List.mem_cons.mp h with rfl | h
      · simp [isSlugChar, hd]
      · exact ih false c h
    · have hd' : isLowerAlnum d = false := by simpa using hd
      cases b with
      | true =>
        rw [show collapseRuns true (d :: cs) = collapseRuns true cs from by
          simp [collapseRuns, hd']] at h
        exact ih true c h
      | false =>
        rw [show collapseRuns false (d :: cs) = '-' :: collapseRuns true cs from by
          simp [collapseRuns, hd']] at h
        rcases List.mem_cons.mp h with rfl | h
        · simp [isSlugChar]
        · exact ih true c h

theorem dropLeadDash_sub (l : List Char) (c : Char) (h : c ∈ dropLeadDash l) : c ∈ l := by
  match l with
  | [] => simp [dropLeadDash] at h
  | d :: t =>
    by_cases hd : d = '-'
    · rw [dropLeadDash, if_pos hd] at h
      exact List.mem_cons_of_mem _ h
    · rwa [dropLeadDash, if_neg hd] at h

theorem stripDashes_sub (l : List Char) (c : Char) (h : c ∈ stripDashes l) : c ∈ l := by
  unfold stripDashes at h
  rw [List.mem_reverse] at h
  have h1 := dropLeadDash_sub _ _ h
  rw [List.mem_reverse] at h1
  exact dropLeadDash_sub _ _ h1

/-- Every character of a generated slug is in `[a-z0-9-]`. -/
theorem generateSlug_chars (name : String) (c : Char) (h : c ∈ (generateSlug name).data) :
    isSlugChar c = true := by
  unfold generateSlug at h
  by_cases he :
      (stripDashes (collapseRuns false (name.data.map Char.toLower))).take 50 |>.isEmpty
  · rw [if_pos (by simpa using he)] at h
    fin_cases h <;> rfl
  · rw [if_neg (by simpa using he)] at h
    have h1 : c ∈ (stripDashes (collapseRuns false (name.data.map Char.toLower))).take 50 := h
    have h2 := List.take_subset 50 _ h1
    exact collapseRuns_chars _ false c (stripDashes_sub _ c h2)

/-- The first character is not a dash. -/
def noLeadDash : List Char → Bool
  | [] => true
  | c :: _ => c != '-'

theorem noLeadDash_cons_of_ne (c : Char) (l : List Char) (h : c ≠ '-') :
    noLeadDash (c :: l) = true := by
  simp [noLeadDash, h]

theorem noLeadDash_dropLast : ∀ (l : List Char), noLeadDash l = true →
    noLeadDash l.dropLast = true
  | [], _ => rfl
  | [c], _ => rfl
  | c :: d :: t, h => by
    rw [show (c :: d :: t).dropLast = c :: (d :: t).dropLast from rfl]
    by_cases hc : c = '-'
    · subst hc; simp [noLeadDash] at h
    · exact noLeadDash_cons_of_ne c _ hc

/-- After a run was just collapsed, the next emitted character is
alphanumeric. -/
theorem collapseRuns_true_noLeadDash : ∀ (cs : List Char),
    noLeadDash (collapseRuns true cs) = true
  | [] => rfl
  | c :: cs => by
    by_cases hc : isLowerAlnum c = true
    · rw [show collapseRuns true (c :: cs) = c :: collapseRuns false cs from by
        simp [collapseRuns, hc]]
      apply noLeadDash_cons_of_ne
      intro hdash
      subst hdash
      simp [isLowerAlnum] at hc
    · have hc' : isLowerAlnum c = false := by simpa using hc
      rw [show collapseRuns true (c :: cs) = collapseRuns true cs from by
        simp [collapseRuns, hc']]
      exact collapseRuns_true_noLeadDash cs

theorem dropLeadDash_collapse_noLeadDash (cs : List Char) :
    noLeadDash (dropLeadDash (collapseRuns false cs)) = true := by
  match cs with
  | [] => rfl
  | c :: cs =>
    by_cases hc : isLowerAlnum c = true
    · rw [show collapseRuns false (c :: cs) = c :: collapseRuns false cs from by
        simp [collapseRuns, hc]]
      have hne : c ≠ '-' := by
        intro hdash; subst hdash; simp [isLowerAlnum] at hc
      rw [dropLeadDash, if_neg hne]
      exact noLeadDash_cons_of_ne c _ hne
    · have hc' : isLowerAlnum c = false := by simpa using hc
      rw [show collapseRuns false (c :: cs) = '-' :: collapseRuns true cs from by
        simp [collapseRuns, hc']]
      rw [dropLeadDash, if_pos rfl]
      exact collapseRuns_true_noLeadDash cs

/-- `stripDashes l` is `dropLeadDash l` with possibly its last element
removed. -/
theorem stripDashes_eq_or (l : List Char) :
    stripDashes l = dropLeadDash l ∨ stripDashes l = (dropLeadDash l).dropLast := by
  unfold stripDashes
  cases hm : (dropLeadDash l).reverse with
  | nil =>
    left
    have hnil : dropLeadDash l = [] := by simpa using congrArg List.reverse hm
    rw [hnil]
    rfl
  | cons h t =>
    by_cases hd : h = '-'
    · right
      subst hd
      rw [dropLeadDash, if_pos rfl]
      have : dropLeadDash l = t.reverse ++ ['-'] := by
        have := congrArg List.reverse hm
        simpa using this
      rw [this]
      simp
    · left
      rw [dropLeadDash, if_neg hd]
      have := congrArg List.reverse hm
      simpa using this.symm

theorem stripDashes_noLeadDash (cs : List Char) :
    noLeadDash (stripDashes (collapseRuns false cs)) = true := by
  rcases stripDashes_eq_or (collapseRuns false cs) with h | h
  · rw [h]; exact dropLeadDash_collapse_noLeadDash cs
  · rw [h]
    exact noLeadDash_dropLast _ (dropLeadDash_collapse_noLeadDash cs)

theorem noLeadDash_take (l : List Char) (n : Nat) (h : noLeadDash l = true) :
    noLeadDash (l.take n) = true := by
  match l, n with
  | [], _ => simpa using h
  | _, 0 => rfl
  | c :: t, n + 1 =>
    rw [List.take_succ_cons]
    by_cases hc : c = '-'
    · subst hc; simp [noLeadDash] at h
    · exact noLeadDash_cons_of_ne c _ hc

/-- The generated slug never begins with `'-'`. -/
theorem generateSlug_noLeadDash (name : String) :
    noLeadDash (generateSlug name).data = true := by
  unfold generateSlug
  by_cases he :
      (stripDashes (collapseRuns false (name.data.map Char.toLower))).take 50 |>.isEmpty
  · rw [if_pos (by simpa using he)]
    rfl
  · rw [if_neg (by simpa using he)]
    exact noLeadDash_take _ 50 (stripDashes_noLeadDash _)

/-- Length bound: at most 50 characters (and `"project"` has 7). -/
theorem generateSlug_length (name : String) : (generateSlug name).length ≤ 50 := by
  unfold generateSlug
  by_cases he :
      (stripDashes (collapseRuns false (name.data.map Char.toLower))).take 50 |>.isEmpty
  · rw [if_pos (by simpa using he)]
    decide
  · rw [if_neg (by simpa using he)]
    show ((stripDashes (collapseRuns false (name.data.map Char.toLower))).take 50).length ≤ 50
    rw [List.length_take]
    exact min_le_left _ _

/-- A name with no alphanumeric character collapses to nothing, so the
fallback `"project"` is returned. -/
theorem collapseRuns_all_nonalnum : ∀ (cs : List Char),
    (∀ c ∈ cs, isLowerAlnum c = false) →
    collapseRuns true cs = [] ∧
      collapseRuns false cs = (if cs = [] then [] else ['-']) := by
  intro cs
  induction cs with
  | nil => intro _; exact ⟨rfl, rfl⟩
  | cons c cs ih =>
    intro h
    have hc : isLowerAlnum c = false := h c (List.mem_cons_self c cs)
    have hrest := ih fun d hd => h d (List.mem_cons_of_mem c hd)
    constructor
    · rw [show collapseRuns true (c :: cs) = collapseRuns true cs from by
        simp [collapseRuns, hc]]
      exact hrest.1
    · rw [show collapseRuns false (c :: cs) = '-' :: collapseRuns true cs from by
        simp [collapseRuns, hc]]
      rw [hrest.1]
      simp

theorem generateSlug_fallback (name : String)
    (h : ∀ c ∈ name.data, isAlnumChar c = false) : generateSlug name = "project" := by
  unfold generateSlug
  have hall : ∀ c ∈ name.data.map Char.toLower, isLowerAlnum c = false := by
    intro c hc
    obtain ⟨d, hd, rfl⟩ := List.mem_map.mp hc
    exact h d hd
  have hcoll := (collapseRuns_all_nonalnum _ hall).2
  by_cases hn : name.data.map Char.toLower = []
  · rw [hcoll, if_pos hn]
    rfl
  · rw [hcoll, if_neg hn]
    rfl

/-! ### Hidden entries and non-file/non-directory entries in listings -/

mutual
/-- No node of this listed tree is hidden (name starting with `'.'`). -/
def pfOk : ProjectFile → Bool
  | ProjectFile.fileEntry n _ _ => !startsDot n
  | ProjectFile.dirEntry n _ cs => !startsDot n && pfAllOk cs

/-- `pfOk` for every node of a `PFList`, recursively. -/
def pfAllOk : PFList → Bool
  | PFList.nil => true
  | PFList.cons f rest => pfOk f && pfAllOk rest
end

theorem pfAllOk_insertPF : ∀ (f : ProjectFile) (l : PFList),
    pfAllOk (insertPF f l) = (pfOk f && pfAllOk l)
  | f, PFList.nil => by simp [insertPF, pfAllOk]
  | f, PFList.cons g rest => by
    by_cases h : pfBefore f g = true
    · simp [insertPF, h, pfAllOk]
    · have h' : pfBefore f g = false := by simpa using h
      simp only [insertPF, h', Bool.false_eq_true, if_false, pfAllOk,
        pfAllOk_insertPF f rest]
      cases pfOk f <;> cases pfOk g <;> cases pfAllOk rest <;> rfl

theorem pfAllOk_sortPF : ∀ l : PFList, pfAllOk (sortPF l) = pfAllOk l
  | PFList.nil => rfl
  | PFList.cons f rest => by
    simp [sortPF, pfAllOk_insertPF, pfAllOk, pfAllOk_sortPF rest]

/-- Every node produced by the readdir loop, at every depth, has a
non-hidden name. -/
theorem collect_ok : ∀ (cs : Listing) (subP : List String),
    pfAllOk (collect cs subP) = true
  | Listing.nil, _ => rfl
  | Listing.cons n e rest, subP => by
    match e with
    | Entry.dir cs =>
      by_cases hn : startsDot n = true
      case pos =>
        rw [show collect (Listing.cons n (Entry.dir cs) rest) subP = collect rest subP
          from by simp [collect, hn]]
        exact collect_ok rest subP
      case neg =>
        have hn' : startsDot n = false := by simpa using hn
        rw [show collect (Listing.cons n (Entry.dir cs) rest) subP
            = PFList.cons
                (ProjectFile.dirEntry n (subP ++ [n]) (sortPF (collect cs (subP ++ [n]))))
                (collect rest subP) from by simp [collect, hn']]
        simp [pfAllOk, pfOk, hn', pfAllOk_sortPF, collect_ok cs (subP ++ [n]),
          collect_ok rest subP]
    | Entry.file d =>
      by_cases hn : startsDot n = true
      case pos =>
        rw [show collect (Listing.cons n (Entry.file d) rest) subP = collect rest subP
          from by simp [collect, hn]]
        exact collect_ok rest subP
      case neg =>
        have hn' : startsDot n = false := by simpa using hn
        rw [show collect (Listing.cons n (Entry.file d) rest) subP
            = PFList.cons (ProjectFile.fileEntry n (subP ++ [n]) (dataSize d))
                (collect rest subP) from by simp [collect, hn']]
        simp [pfAllOk, pfOk, hn', collect_ok rest subP]
    | Entry.other =>
      by_cases hn : startsDot n = true
      case pos =>
        rw [show collect (Listing.cons n Entry.other rest) subP = collect rest subP
          from by simp [collect, hn]]
        exact collect_ok rest subP
      case neg =>
        have hn' : startsDot n = false := by simpa using hn
        rw [show collect (Listing.cons n Entry.other rest) subP = collect rest subP from by
          simp [collect, hn']]
        exact collect_ok rest subP

/-- Delete every entry that is neither a regular file nor a directory, at
every depth. -/
def scrubOthers : Listing → Listing
  | Listing.nil => Listing.nil
  | Listing.cons _ Entry.other rest => scrubOthers rest
  | Listing.cons n (Entry.dir cs) rest =>
    Listing.cons n (Entry.dir (scrubOthers cs)) (scrubOthers rest)
  | Listing.cons n (Entry.file d) rest => Listing.cons n (Entry.file d) (scrubOthers rest)

/-- Entries that are neither files nor directories leave no trace in the
readdir loop of `listProjectFiles`. -/
theorem collect_scrubOthers : ∀ (cs : Listing) (subP : List String),
    collect (scrubOthers cs) subP = collect cs subP
  | Listing.nil, _ => rfl
  | Listing.cons n Entry.other rest, subP => by
    rw [show scrubOthers (Listing.cons n Entry.other rest) = scrubOthers rest from rfl]
    rw [collect_scrubOthers rest subP]
    by_cases hn : startsDot n = true
    · simp [collect, hn]
    · have hn' : startsDot n = false := by simpa using hn
      simp [collect, hn']
  | Listing.cons n (Entry.dir cs) rest, subP => by
    rw [show scrubOthers (Listing.cons n (Entry.dir cs) rest)
        = Listing.cons n (Entry.dir (scrubOthers cs)) (scrubOthers rest) from rfl]
    by_cases hn : startsDot n = true
    · simp [collect, hn, collect_scrubOthers rest subP]
    · have hn' : startsDot n = false := by simpa using hn
      simp [collect, hn', collect_scrubOthers rest subP,
        collect_scrubOthers cs (subP ++ [n])]
  | Listing.cons n (Entry.file d) rest, subP => by
    rw [show scrubOthers (Listing.cons n (Entry.file d) rest)
        = Listing.cons n (Entry.file d) (scrubOthers rest) from rfl]
    by_cases hn : startsDot n = true
    · simp [collect, hn, collect_scrubOthers rest subP]
    · have hn' : startsDot n = false := by simpa using hn
      simp [collect, hn', collect_scrubOthers rest subP]

/-- Entries that are neither files nor directories contribute nothing to the
recursive file count. -/
theorem countFilesIn_scrubOthers : ∀ cs : Listing,
    countFilesIn (scrubOthers cs) = countFilesIn cs
  | Listing.nil => rfl
  | Listing.cons n Entry.other rest => by
    rw [show scrubOthers (Listing.cons n Entry.other rest) = scrubOthers rest from rfl]
    rw [countFilesIn_scrubOthers rest]
    rfl
  | Listing.cons n (Entry.dir cs) rest => by
    rw [show scrubOthers (Listing.cons n (Entry.dir cs) rest)
        = Listing.cons n (Entry.dir (scrubOthers cs)) (scrubOthers rest) from rfl]
    show countFilesIn (scrubOthers cs) + countFilesIn (scrubOthers rest)
        = countFilesIn cs + countFilesIn rest
    rw [countFilesIn_scrubOthers cs, countFilesIn_scrubOthers rest]
  | Listing.cons n (Entry.file d) rest => by
    rw [show scrubOthers (Listing.cons n (Entry.file d) rest)
        = Listing.cons n (Entry.file d) (scrubOthers rest) from rfl]
    show 1 + countFilesIn (scrubOthers rest) = 1 + countFilesIn rest
    rw [countFilesIn_scrubOthers rest]

/-! ### Shared concrete fixtures -/

/-- A sample stored configuration. -/
def sampleConfig : ProjectConfig :=
  { id := "proj_ab12cd34"
    name := "Sample"
    slug := "p"
    description := none
    guidelines := none
    createdAt := 1
    updatedAt := 1
    enabledSourceSlugs := none }

/-- An empty workspace root. -/
def emptyRoot : Entry := Entry.dir Listing.nil

/-- The workspace produced by saving `sampleConfig` under slug `"p"` into an
empty root at time 7. -/
def savedSampleFs : Entry :=
  Entry.dir (Listing.cons "projects"
    (Entry.dir (Listing.cons "p"
      (Entry.dir (Listing.cons "config.json"
        (Entry.file (FileData.config { sampleConfig with updatedAt := 7 }))
        Listing.nil))
      Listing.nil))
    Listing.nil)

/-! ### Claim theorems -/

/-- Helper: what `loadProjectConfig` sees right after a successful
`saveProjectConfig`. -/
theorem saveProjectConfig_then_load (fs fs' : Entry) (slug : String) (c : ProjectConfig)
    (now : Nat) (h : saveProjectConfig fs slug c now = some fs') :
    loadProjectConfig fs' slug = some { c with updatedAt := now } := by
  unfold saveProjectConfig at h
  cases hfs1 : (if existsE fs (getProjectPath slug) then some fs
      else mkdirp fs (getProjectPath slug)) with
  | none => rw [hfs1] at h; simp at h
  | some fs1 =>
    rw [hfs1] at h
    simp only [Option.some_bind] at h
    have hw := writeFile_spec fs1 fs' _ _ h
    unfold loadProjectConfig
    rw [show configPathOf slug = getProjectPath slug ++ ["config.json"] from rfl, hw]

/-- C1: for every configuration `c`, `saveProjectConfig` followed by
`loadProjectConfig` on the same slug returns `c` with `updatedAt` replaced by
the timestamp taken at save time, all other fields unchanged. -/
theorem saveLoad_roundtrip (fs fs' : Entry) (slug : String) (c : ProjectConfig) (now : Nat)
    (h : saveProjectConfig fs slug c now = some fs') :
    loadProjectConfig fs' slug = some { c with updatedAt := now } :=
  saveProjectConfig_then_load fs fs' slug c now h

/-- Witness for C1 at a concrete save. -/
theorem saveLoad_roundtrip_witness :
    saveProjectConfig emptyRoot "p" sampleConfig 7 = some savedSampleFs ∧
      loadProjectConfig savedSampleFs "p" = some { sampleConfig with updatedAt := 7 } :=
  ⟨rfl, saveLoad_roundtrip emptyRoot savedSampleFs "p" sampleConfig 7 rfl⟩

theorem divergeB_cons_eq (a : String) (p q : List String) :
    divergeB (a :: p) (a :: q) = divergeB p q := by
  simp [divergeB]

theorem divergeB_cons_ne (a b : String) (p q : List String) (h : a ≠ b) :
    divergeB (a :: p) (b :: q) = true := by
  simp [divergeB, h]

/-- C6 counterexample: `saveProjectConfig` on a missing project creates the
project folder but no `files/` subdirectory, so "after any store operation
that creates a project folder, that folder contains `files/`" fails. -/
theorem saveProjectConfig_no_files_dir :
    saveProjectConfig emptyRoot "p" sampleConfig 7 = some savedSampleFs ∧
      existsE savedSampleFs (getProjectPath "p") = true ∧
      existsE savedSampleFs (getProjectFilesPath "p") = false :=
  ⟨rfl, rfl, rfl⟩

/-- C6 amended: a project folder created by `createProject` always contains
a `files/` subdirectory. -/
theorem createProject_files_dir (fs : Entry) (input : CreateProjectInput) (now : Nat)
    (uuid : String) (cfg : ProjectConfig) (fs' : Entry)
    (h : createProject fs input now uuid = some (cfg, fs')) :
    ∃ cs, getEntry fs' (getProjectFilesPath cfg.slug) = some (Entry.dir cs) := by
  simp only [createProject] at h
  cases h0 : (if existsE fs getWorkspaceProjectsPath then some fs
      else mkdirp fs getWorkspaceProjectsPath) with
  | none => rw [h0] at h; simp at h
  | some fs0 =>
    rw [h0] at h
    simp only [Option.some_bind] at h
    cases h1 : mkdirp fs0
        (getWorkspaceProjectsPath ++ [generateUniqueProjectSlug input.name fs0]) with
    | none => rw [h1] at h; simp at h
    | some fs1 =>
      rw [h1] at h
      simp only [Option.some_bind] at h
      cases h2 : mkdirp fs1
          (getWorkspaceProjectsPath ++ [generateUniqueProjectSlug input.name fs0, "files"]) with
      | none => rw [h2] at h; simp at h
      | some fs2 =>
        rw [h2] at h
        simp only [Option.some_bind] at h
        cases h3 : writeFile fs2
            (getWorkspaceProjectsPath
              ++ [generateUniqueProjectSlug input.name fs0, "config.json"])
            (FileData.config
              { id := "proj_" ++ uuid.take 8
                name := input.name
                slug := generateUniqueProjectSlug input.name fs0
                description := input.description
                guidelines := input.guidelines
                createdAt := now
                updatedAt := now
                enabledSourceSlugs := input.enabledSourceSlugs }) with
        | none => rw [h3] at h; simp at h
        | some fs3 =>
          rw [h3] at h
          simp only [Option.some_bind] at h
          obtain ⟨cs2, hcs2⟩ := mkdirp_spec _ fs1 fs2 h2
          have hpath : getWorkspaceProjectsPath
              ++ [generateUniqueProjectSlug input.name fs0, "files"]
              = getProjectFilesPath (generateUniqueProjectSlug input.name fs0) := by
            simp [getProjectFilesPath, getProjectPath, getWorkspaceProjectsPath]
          have hdiv : divergeB
              (getWorkspaceProjectsPath
                ++ [generateUniqueProjectSlug input.name fs0, "config.json"])
              (getWorkspaceProjectsPath
                ++ [generateUniqueProjectSlug input.name fs0, "files"]) = true := by
            show divergeB ("projects" :: [generateUniqueProjectSlug input.name fs0,
              "config.json"]) ("projects" :: [generateUniqueProjectSlug input.name fs0,
              "files"]) = true
            rw [divergeB_cons_eq, divergeB_cons_eq]
            exact divergeB_cons_ne _ _ _ _ (by decide)
          have hcs3 : getEntry fs3
              (getWorkspaceProjectsPath
                ++ [generateUniqueProjectSlug input.name fs0, "files"])
              = some (Entry.dir cs2) := by
            rw [writeFile_preserve _ _ fs2 fs3 _ hdiv h3]
            exact hcs2
          match hg : input.guidelines with
          | none =>
            rw [hg] at h
            dsimp only at h
            simp only [Option.some.injEq, Prod.mk.injEq] at h
            obtain ⟨hcfg, hfs⟩ := h
            refine ⟨cs2, ?_⟩
            rw [← hfs, ← hcfg, ← hpath]
            exact hcs3
          | some g =>
            rw [hg] at h
            dsimp only at h
            by_cases hge : g = ""
            · rw [if_pos hge] at h
              simp only [Option.some.injEq, Prod.mk.injEq] at h
              obtain ⟨hcfg, hfs⟩ := h
              refine ⟨cs2, ?_⟩
              rw [← hfs, ← hcfg, ← hpath]
              exact hcs3
            · rw [if_neg hge] at h
              cases h4 : writeFile fs3
                  (getWorkspaceProjectsPath
                    ++ [generateUniqueProjectSlug input.name fs0, "guidelines.md"])
                  (FileData.text g) with
              | none => rw [h4] at h; simp at h
              | some fs4 =>
                rw [h4] at h
                simp only [Option.map_some', Option.some.injEq, Prod.mk.injEq] at h
                obtain ⟨hcfg, hfs⟩ := h
                have hdiv2 : divergeB
                    (getWorkspaceProjectsPath
                      ++ [generateUniqueProjectSlug input.name fs0, "guidelines.md"])
                    (getWorkspaceProjectsPath
                      ++ [generateUniqueProjectSlug input.name fs0, "files"]) = true := by
                  show divergeB ("projects" :: [generateUniqueProjectSlug input.name fs0,
                    "guidelines.md"]) ("projects" :: [generateUniqueProjectSlug input.name
                    fs0, "files"]) = true
                  rw [divergeB_cons_eq, divergeB_cons_eq]
                  exact divergeB_cons_ne _ _ _ _ (by decide)
                refine ⟨cs2, ?_⟩
                rw [← hfs, ← hcfg, ← hpath]
                rw [writeFile_preserve _ _ fs3 fs4 _ hdiv2 h4]
                exact hcs3

/-- Witness for C6 (amended) at a concrete creation. -/
theorem createProject_files_dir_witness :
    ∃ cfg fs' cs, createProject emptyRoot
        { name := "My Plan", description := none, guidelines := none,
          enabledSourceSlugs := none } 100 "a1b2c3d4-e5f6" = some (cfg, fs') ∧
      getEntry fs' (getProjectFilesPath cfg.slug) = some (Entry.dir cs) := by
  obtain ⟨cs, hcs⟩ := createProject_files_dir emptyRoot
    { name := "My Plan", description := none, guidelines := none,
      enabledSourceSlugs := none } 100 "a1b2c3d4-e5f6" _ _ rfl
  exact ⟨_, _, cs, rfl, hcs⟩

/-- A lowercase hexadecimal digit, as produced by `randomUUID()`. -/
def hexDigit (c : Char) : Bool := c.isDigit || ('a' ≤ c && c ≤ 'f')

/-- The creation input `{ name: "My Plan" }`. -/
def myPlanInput : CreateProjectInput :=
  { name := "My Plan", description := none, guidelines := none, enabledSourceSlugs := none }

/-- The configuration returned by the first `createProject({name:"My Plan"})`
call on an empty root. -/
def myPlanConfig (now : Nat) (uuid : String) : ProjectConfig :=
  { id := "proj_" ++ uuid.take 8, name := "My Plan", slug := "my-plan", description := none,
    guidelines := none, createdAt := now, updatedAt := now, enabledSourceSlugs := none }

/-- The workspace after that first call. -/
def myPlanFs (now : Nat) (uuid : String) : Entry :=
  Entry.dir (Listing.cons "projects" (Entry.dir (Listing.cons "my-plan" (Entry.dir
    (Listing.cons "files" (Entry.dir Listing.nil)
      (Listing.cons "config.json" (Entry.file (FileData.config (myPlanConfig now uuid)))
        Listing.nil)))
    Listing.nil)) Listing.nil)

/-- The configuration returned by a second `createProject({name:"My Plan"})`
call. -/
def myPlanConfig2 (now2 : Nat) (uuid2 : String) : ProjectConfig :=
  { id := "proj_" ++ uuid2.take 8, name := "My Plan", slug := "my-plan-2",
    description := none, guidelines := none, createdAt := now2, updatedAt := now2,
    enabledSourceSlugs := none }

/-- The workspace after the second call. -/
def myPlanFs2 (now : Nat) (uuid : String) (now2 : Nat) (uuid2 : String) : Entry :=
  Entry.dir (Listing.cons "projects" (Entry.dir
    (Listing.cons "my-plan" (Entry.dir
      (Listing.cons "files" (Entry.dir Listing.nil)
        (Listing.cons "config.json" (Entry.file (FileData.config (myPlanConfig now uuid)))
          Listing.nil)))
      (Listing.cons "my-plan-2" (Entry.dir
        (Listing.cons "files" (Entry.dir Listing.nil)
          (Listing.cons "config.json"
            (Entry.file (FileData.config (myPlanConfig2 now2 uuid2)))
            Listing.nil)))
        Listing.nil)))
    Listing.nil)

theorem createProject_myPlan_first (now : Nat) (uuid : String) :
    createProject emptyRoot myPlanInput now uuid
      = some (myPlanConfig now uuid, myPlanFs now uuid) := rfl

theorem generateUniqueProjectSlug_myPlan_second (now : Nat) (uuid : String) :
    generateUniqueProjectSlug myPlanInput.name (myPlanFs now uuid) = "my-plan-2" := by
  unfold generateUniqueProjectSlug
  rw [show generateSlug myPlanInput.name = "my-plan" from rfl]
  dsimp only
  rw [show existsE (myPlanFs now uuid) (getWorkspaceProjectsPath ++ ["my-plan"]) = true
    from rfl]
  rw [show projectsMaxNameLen (myPlanFs now uuid) = 7 from rfl]
  rw [show probeCounter (myPlanFs now uuid) "my-plan" 2 (10 ^ (7 + 1) + 1) = 2 from rfl]
  rfl

theorem createProject_myPlan_second (now now2 : Nat) (uuid uuid2 : String) :
    createProject (myPlanFs now uuid) myPlanInput now2 uuid2
      = some (myPlanConfig2 now2 uuid2, myPlanFs2 now uuid now2 uuid2) := by
  simp only [createProject]
  rw [show (if existsE (myPlanFs now uuid) getWorkspaceProjectsPath
      then some (myPlanFs now uuid)
      else mkdirp (myPlanFs now uuid) getWorkspaceProjectsPath)
    = some (myPlanFs now uuid) from rfl]
  simp only [Option.some_bind]
  rw [generateUniqueProjectSlug_myPlan_second now uuid]
  rfl

/-- C2: on an empty projects root, `createProject({name:"My Plan"})` returns
slug `"my-plan"`, a non-empty id `"proj_"` + the first 8 characters of the
random UUID (8 hex digits), equal `createdAt`/`updatedAt`, and creates the
project directory with an empty `files/` subdirectory; a second call with the
same name yields slug `"my-plan-2"`. -/
theorem createProject_myPlan (now now2 : Nat) (uuid uuid2 : String)
    (h8 : (uuid.take 8).length = 8)
    (hhex : (uuid.take 8).data.all hexDigit = true) :
    ∃ cfg fs1, createProject emptyRoot myPlanInput now uuid = some (cfg, fs1)
      ∧ cfg.slug = "my-plan"
      ∧ cfg.id = "proj_" ++ uuid.take 8
      ∧ cfg.id ≠ ""
      ∧ cfg.id.data = "proj_".data ++ (uuid.take 8).data
      ∧ (uuid.take 8).length = 8
      ∧ (uuid.take 8).data.all hexDigit = true
      ∧ cfg.createdAt = now ∧ cfg.updatedAt = now ∧ cfg.createdAt = cfg.updatedAt
      ∧ existsE fs1 (getProjectPath "my-plan") = true
      ∧ getEntry fs1 (getProjectFilesPath "my-plan") = some (Entry.dir Listing.nil)
      ∧ ∃ cfg2 fs2, createProject fs1 myPlanInput now2 uuid2 = some (cfg2, fs2)
          ∧ cfg2.slug = "my-plan-2" := by
  refine ⟨myPlanConfig now uuid, myPlanFs now uuid, createProject_myPlan_first now uuid,
    rfl, rfl, ?_,
    by rw [show (myPlanConfig now uuid).id = "proj_" ++ uuid.take 8 from rfl,
      String.data_append],
    h8, hhex, rfl, rfl, rfl, rfl, rfl,
    myPlanConfig2 now2 uuid2, myPlanFs2 now uuid now2 uuid2,
    createProject_myPlan_second now now2 uuid uuid2, rfl⟩
  intro heq
  have hlen := congrArg String.length heq
  rw [show (myPlanConfig now uuid).id = "proj_" ++ uuid.take 8 from rfl,
    String.length_append] at hlen
  have h5 : ("proj_" : String).length = 5 := rfl
  have h0 : ("" : String).length = 0 := rfl
  omega

/-- Witness for C2 at a concrete UUID. -/
theorem createProject_myPlan_witness :
    ("a1b2c3d4-e5f6".take 8).length = 8 ∧
      ("a1b2c3d4-e5f6".take 8).data.all hexDigit = true ∧
      (∃ cfg fs1,
        createProject emptyRoot myPlanInput 100 "a1b2c3d4-e5f6" = some (cfg, fs1)
          ∧ cfg.slug = "my-plan"
          ∧ cfg.id = "proj_" ++ "a1b2c3d4-e5f6".take 8
          ∧ cfg.id ≠ ""
          ∧ cfg.id.data = "proj_".data ++ ("a1b2c3d4-e5f6".take 8).data
          ∧ ("a1b2c3d4-e5f6".take 8).length = 8
          ∧ ("a1b2c3d4-e5f6".take 8).data.all hexDigit = true
          ∧ cfg.createdAt = 100 ∧ cfg.updatedAt = 100 ∧ cfg.createdAt = cfg.updatedAt
          ∧ existsE fs1 (getProjectPath "my-plan") = true
          ∧ getEntry fs1 (getProjectFilesPath "my-plan") = some (Entry.dir Listing.nil)
          ∧ ∃ cfg2 fs2,
              createProject fs1 myPlanInput 200 "00000000-1111" = some (cfg2, fs2)
                ∧ cfg2.slug = "my-plan-2") :=
  ⟨by decide, by decide,
    createProject_myPlan 100 200 "a1b2c3d4-e5f6" "00000000-1111" (by decide) (by decide)⟩

/-- C3 counterexample: the source strips dashes before truncating to 50
characters, so truncation can cut right after a dash and the claim's "no
trailing `'-'`" fails; here the 49 `'a'`s and the collapsed space fill the 50
characters. -/
theorem generateSlug_trailing_dash :
    (generateSlug (String.mk (List.replicate 49 'a') ++ " b")).data.getLast? = some '-'
      ∧ (generateSlug (String.mk (List.replicate 49 'a') ++ " b")).length = 50 :=
  ⟨by decide, by decide⟩

/-- C3 (amended): every `generateSlug` result is lowercase, matches
`[a-z0-9-]*`, has no leading `'-'` (a trailing `'-'` can survive when
truncation cuts just after a dash), has length at most 50, and is the literal
`"project"` when the name has no alphanumeric character. -/
theorem generateSlug_spec (name : String) :
    (∀ c ∈ (generateSlug name).data, isSlugChar c = true)
      ∧ (∀ c ∈ (generateSlug name).data, c.isUpper = false)
      ∧ noLeadDash (generateSlug name).data = true
      ∧ (generateSlug name).length ≤ 50
      ∧ ((∀ c ∈ name.data, isAlnumChar c = false) → generateSlug name = "project") :=
  ⟨fun c hc => generateSlug_chars name c hc,
    fun c hc => isSlugChar_not_upper c (generateSlug_chars name c hc),
    generateSlug_noLeadDash name,
    generateSlug_length name,
    generateSlug_fallback name⟩

/-- Witness for C3 (amended) at concrete names. -/
theorem generateSlug_spec_witness :
    isSlugChar 'm' = true ∧ generateSlug "!!" = "project" :=
  ⟨(generateSlug_spec "My Plan").1 'm' (by decide),
    (generateSlug_spec "!!").2.2.2.2 (by decide)⟩

/-- C4: `generateUniqueProjectSlug` never returns a name colliding with an
existing folder under the projects directory; with existing folders `x` and
`x-2` and base slug `x` it returns `x-3`. -/
theorem generateUniqueProjectSlug_spec :
    (∀ (fs : Entry) (name : String),
      existsE fs (getWorkspaceProjectsPath ++ [generateUniqueProjectSlug name fs]) = false)
      ∧ generateUniqueProjectSlug "x"
          (Entry.dir (Listing.cons "projects" (Entry.dir
            (Listing.cons "x" (Entry.dir Listing.nil)
              (Listing.cons "x-2" (Entry.dir Listing.nil) Listing.nil))) Listing.nil))
          = "x-3" :=
  ⟨fun fs name => generateUniqueProjectSlug_free fs name, by decide⟩

/-- A project whose `files/` directory holds exactly one hidden file. -/
def hiddenFilesFs : Entry :=
  Entry.dir (Listing.cons "projects" (Entry.dir (Listing.cons "p" (Entry.dir
    (Listing.cons "config.json" (Entry.file (FileData.config sampleConfig))
      (Listing.cons "files"
        (Entry.dir (Listing.cons ".hidden" (Entry.file (FileData.text "x")) Listing.nil))
        Listing.nil)))
    Listing.nil)) Listing.nil)

/-- C5 counterexample: a hidden file is invisible to `listProjectFiles` yet
still counted by the recursive count behind `getProjectSummary.fileCount`,
so hidden entries are NOT excluded from all count operations. -/
theorem hidden_file_counted :
    listProjectFiles hiddenFilesFs "p" [] = PFList.nil
      ∧ (getProjectSummary hiddenFilesFs "p" 0).map (fun s => s.fileCount) = some 1 :=
  ⟨rfl, rfl⟩

/-- C5 (amended): entries whose name starts with `'.'` are excluded from
`listProjectFiles` at every depth; they are not excluded from the
`fileCount` computed by `getProjectSummary` (see `hidden_file_counted`). -/
theorem listProjectFiles_no_hidden (fs : Entry) (slug : String) (subP : List String) :
    pfAllOk (listProjectFiles fs slug subP) = true := by
  unfold listProjectFiles
  cases h : getEntry fs (getProjectFilesPath slug ++ subP) with
  | none => rfl
  | some e =>
    cases e with
    | dir cs => rw [pfAllOk_sortPF]; exact collect_ok cs subP
    | file d => rfl
    | other => rfl

/-- C10: deleting every entry that is neither a regular file nor a directory
changes neither the output of the readdir loop of `listProjectFiles` (at any
depth) nor the recursive file count behind `ProjectSummary.fileCount` — such
entries are omitted entirely, whatever their name. -/
theorem others_invisible (cs : Listing) :
    (∀ subP, collect (scrubOthers cs) subP = collect cs subP)
      ∧ countFilesIn (scrubOthers cs) = countFilesIn cs :=
  ⟨fun subP => collect_scrubOthers cs subP, countFilesIn_scrubOthers cs⟩

/-- Inversion of a successful `updateProject`: the returned config is the
shallow merge, and the final filesystem comes from the save followed by one
of the four guidelines branches. -/
theorem updateProject_inv (fs : Entry) (slug : String) (u : ProjectUpdates)
    (now nowS : Nat) (c cfg' : ProjectConfig) (fs' : Entry)
    (hload : loadProjectConfig fs slug = some c)
    (h : updateProject fs slug u now nowS = some (some cfg', fs')) :
    cfg' = applyUpdates c u now
      ∧ ∃ fs1, saveProjectConfig fs slug (applyUpdates c u now) nowS = some fs1
        ∧ ((u.guidelines = none ∧ fs' = fs1)
          ∨ (∃ g, u.guidelines = some g ∧ g ≠ ""
              ∧ writeFile fs1 (guidelinesPathOf slug) (FileData.text g) = some fs')
          ∨ (u.guidelines = some "" ∧ existsE fs1 (guidelinesPathOf slug) = true
              ∧ removeFile fs1 (guidelinesPathOf slug) = some fs')
          ∨ (u.guidelines = some "" ∧ existsE fs1 (guidelinesPathOf slug) = false
              ∧ fs' = fs1)) := by
  unfold updateProject at h
  rw [hload] at h
  dsimp only at h
  cases hs : saveProjectConfig fs slug (applyUpdates c u now) nowS with
  | none => rw [hs] at h; simp at h
  | some fs1 =>
    rw [hs] at h
    simp only [Option.some_bind] at h
    cases hg : u.guidelines with
    | none =>
      rw [hg] at h
      dsimp only at h
      simp only [Option.some.injEq, Prod.mk.injEq] at h
      obtain ⟨hc, hf⟩ := h
      exact ⟨hc.symm, fs1, rfl, Or.inl ⟨rfl, hf.symm⟩⟩
    | some g =>
      rw [hg] at h
      dsimp only at h
      by_cases hge : g = ""
      · rw [if_pos hge] at h
        by_cases hex : existsE fs1 (guidelinesPathOf slug) = true
        · rw [if_pos hex] at h
          cases hr : removeFile fs1 (guidelinesPathOf slug) with
          | none => rw [hr] at h; simp at h
          | some fs2 =>
            rw [hr] at h
            simp only [Option.map_some', Option.some.injEq, Prod.mk.injEq] at h
            obtain ⟨hc, hf⟩ := h
            subst hge
            exact ⟨hc.symm, fs1, rfl, Or.inr (Or.inr (Or.inl ⟨rfl, hex, hf ▸ hr⟩))⟩
        · have hex' : existsE fs1 (guidelinesPathOf slug) = false := by simpa using hex
          rw [if_neg (by simp [hex'])] at h
          simp only [Option.some.injEq, Prod.mk.injEq] at h
          obtain ⟨hc, hf⟩ := h
          subst hge
          exact ⟨hc.symm, fs1, rfl, Or.inr (Or.inr (Or.inr ⟨rfl, hex', hf.symm⟩))⟩
      · rw [if_neg hge] at h
        cases hw : writeFile fs1 (guidelinesPathOf slug) (FileData.text g) with
        | none => rw [hw] at h; simp at h
        | some fs2 =>
          rw [hw] at h
          simp only [Option.map_some', Option.some.injEq, Prod.mk.injEq] at h
          obtain ⟨hc, hf⟩ := h
          exact ⟨hc.symm, fs1, rfl, Or.inr (Or.inl ⟨g, rfl, hge, hf ▸ hw⟩)⟩

theorem existsE_false_getEntry (fs : Entry) (p : List String)
    (h : existsE fs p = false) : getEntry fs p = none := by
  unfold existsE at h
  cases hx : getEntry fs p with
  | none => rfl
  | some e => rw [hx] at h; simp at h

/-- C8: when `updates.guidelines` is explicitly provided, `updateProject`
writes `guidelines.md` with the value when it is truthy (non-empty) and
removes `guidelines.md` otherwise; in particular setting guidelines to `""`
deletes the file. -/
theorem updateProject_guidelines (fs : Entry) (slug : String) (u : ProjectUpdates)
    (now nowS : Nat) (c cfg' : ProjectConfig) (fs' : Entry) (g : String)
    (hload : loadProjectConfig fs slug = some c)
    (h : updateProject fs slug u now nowS = some (some cfg', fs'))
    (hg : u.guidelines = some g) :
    (g ≠ "" → getEntry fs' (guidelinesPathOf slug) = some (Entry.file (FileData.text g)))
      ∧ (g = "" → getEntry fs' (guidelinesPathOf slug) = none) := by
  obtain ⟨-, fs1, hsave, hbr⟩ := updateProject_inv fs slug u now nowS c cfg' fs' hload h
  rcases hbr with ⟨hnone, -⟩ | ⟨g', hg', hne, hw⟩ | ⟨hemp, hex, hr⟩ | ⟨hemp, hex, hf⟩
  · rw [hnone] at hg
    exact absurd hg (by simp)
  · rw [hg'] at hg
    injection hg with hgg
    subst hgg
    constructor
    · intro _
      exact writeFile_spec fs1 fs' _ _ hw
    · intro hcontra
      exact absurd hcontra hne
  · rw [hemp] at hg
    injection hg with hgg
    subst hgg
    constructor
    · intro hne
      exact absurd rfl hne
    · intro _
      exact removeFile_spec fs1 fs' _ hr
  · rw [hemp] at hg
    injection hg with hgg
    subst hgg
    constructor
    · intro hne
      exact absurd rfl hne
    · intro _
      rw [hf]
      exact existsE_false_getEntry fs1 _ hex

/-- A project whose guidelines are currently the non-empty text `"old"`. -/
def guideConfig : ProjectConfig :=
  { id := "proj_g", name := "G", slug := "p", description := none,
    guidelines := some "old", createdAt := 1, updatedAt := 1, enabledSourceSlugs := none }

/-- Workspace for the guidelines fixtures. -/
def guidelinesFs : Entry :=
  Entry.dir (Listing.cons "projects" (Entry.dir (Listing.cons "p" (Entry.dir
    (Listing.cons "config.json" (Entry.file (FileData.config guideConfig))
      (Listing.cons "guidelines.md" (Entry.file (FileData.text "old")) Listing.nil)))
    Listing.nil)) Listing.nil)

/-- The update `{ guidelines: "" }`. -/
def setEmptyGuidelines : ProjectUpdates :=
  { name := none, description := none, guidelines := some "", enabledSourceSlugs := none }

/-- Witness for C8: setting guidelines to `""` after they were non-empty
deletes `guidelines.md`. -/
theorem updateProject_guidelines_witness :
    ∃ cfg' fs', updateProject guidelinesFs "p" setEmptyGuidelines 7 8
        = some (some cfg', fs')
      ∧ getEntry fs' (guidelinesPathOf "p") = none := by
  obtain ⟨-, hw2⟩ := updateProject_guidelines guidelinesFs "p" setEmptyGuidelines 7 8
    guideConfig _ _ "" rfl rfl rfl
  exact ⟨_, _, rfl, hw2 rfl⟩

theorem loadProjectConfig_congr (fsa fsb : Entry) (slug : String)
    (h : getEntry fsa (configPathOf slug) = getEntry fsb (configPathOf slug)) :
    loadProjectConfig fsa slug = loadProjectConfig fsb slug := by
  unfold loadProjectConfig
  rw [h]

/-- C9: `updateProject` merges only the four recognized fields over the
loaded config; the returned and persisted config keep `id`, `slug` and
`createdAt`, and only `updatedAt` is additionally refreshed (the persisted
copy carries the save-time stamp). -/
theorem updateProject_frame (fs : Entry) (slug : String) (u : ProjectUpdates)
    (now nowS : Nat) (c cfg' : ProjectConfig) (fs' : Entry)
    (hload : loadProjectConfig fs slug = some c)
    (h : updateProject fs slug u now nowS = some (some cfg', fs')) :
    cfg'.id = c.id ∧ cfg'.slug = c.slug ∧ cfg'.createdAt = c.createdAt
      ∧ cfg'.updatedAt = now
      ∧ cfg'.name = (match u.name with | some v => v | none => c.name)
      ∧ cfg'.description
          = (match u.description with | some v => some v | none => c.description)
      ∧ cfg'.guidelines
          = (match u.guidelines with | some v => some v | none => c.guidelines)
      ∧ cfg'.enabledSourceSlugs
          = (match u.enabledSourceSlugs with
             | some v => some v
             | none => c.enabledSourceSlugs)
      ∧ loadProjectConfig fs' slug = some { cfg' with updatedAt := nowS } := by
  obtain ⟨hcfg, fs1, hsave, hbr⟩ := updateProject_inv fs slug u now nowS c cfg' fs' hload h
  subst hcfg
  have hload1 : loadProjectConfig fs1 slug
      = some { applyUpdates c u now with updatedAt := nowS } :=
    saveProjectConfig_then_load fs fs1 slug (applyUpdates c u now) nowS hsave
  refine ⟨rfl, rfl, rfl, rfl, rfl, rfl, rfl, rfl, ?_⟩
  have hdiv : divergeB (guidelinesPathOf slug) (configPathOf slug) = true := by
    show divergeB ("projects" :: slug :: ["guidelines.md"])
      ("projects" :: slug :: ["config.json"]) = true
    rw [divergeB_cons_eq, divergeB_cons_eq]
    exact divergeB_cons_ne _ _ _ _ (by decide)
  rcases hbr with ⟨-, rfl⟩ | ⟨g, -, -, hw⟩ | ⟨-, -, hr⟩ | ⟨-, -, rfl⟩
  · exact hload1
  · rw [loadProjectConfig_congr fs' fs1 slug (writeFile_preserve _ _ fs1 fs' _ hdiv hw)]
    exact hload1
  · rw [loadProjectConfig_congr fs' fs1 slug (removeFile_preserve _ _ fs1 fs' hdiv hr)]
    exact hload1
  · exact hload1

/-- The update `{ name: "Renamed" }`. -/
def renameUpdate : ProjectUpdates :=
  { name := some "Renamed", description := none, guidelines := none,
    enabledSourceSlugs := none }

/-- Witness for C9 at a concrete update. -/
theorem updateProject_frame_witness :
    ∃ cfg' fs', updateProject guidelinesFs "p" renameUpdate 7 8 = some (some cfg', fs')
      ∧ cfg'.id = guideConfig.id ∧ cfg'.slug = guideConfig.slug
      ∧ cfg'.createdAt = guideConfig.createdAt ∧ cfg'.name = "Renamed"
      ∧ loadProjectConfig fs' "p" = some { cfg' with updatedAt := 8 } := by
  have h := updateProject_frame guidelinesFs "p" renameUpdate 7 8 guideConfig _ _ rfl rfl
  exact ⟨_, _, rfl, h.1, h.2.1, h.2.2.1, h.2.2.2.2.1, h.2.2.2.2.2.2.2.2⟩

/-- C7: `renameProjectFile` returns `false` and leaves the filesystem
untouched when the source is missing or the destination already exists (it
never overwrites); when it returns `true`, the destination now holds exactly
the entry the source held and the source is gone.  A failure after the
parent-directory creation also returns `false` (the `catch` of the source);
only the directories already created remain, as on disk. -/
theorem renameProjectFile_spec (fs : Entry) (slug : String) (oldP newP : List String) :
    (existsE fs (getProjectFilesPath slug ++ oldP) = false →
      renameProjectFile fs slug oldP newP = (false, fs))
      ∧ (existsE fs (getProjectFilesPath slug ++ oldP) = true →
        existsE fs (getProjectFilesPath slug ++ newP) = true →
        renameProjectFile fs slug oldP newP = (false, fs))
      ∧ ((renameProjectFile fs slug oldP newP).1 = true →
        getEntry (renameProjectFile fs slug oldP newP).2
            (getProjectFilesPath slug ++ newP)
          = getEntry fs (getProjectFilesPath slug ++ oldP)
        ∧ getEntry (renameProjectFile fs slug oldP newP).2
            (getProjectFilesPath slug ++ oldP) = none) := by
  refine ⟨?_, ?_, ?_⟩
  · intro h
    unfold renameProjectFile
    simp [h]
  · intro ho h
    unfold renameProjectFile
    simp [ho, h]
  · intro htrue
    by_cases hold : existsE fs (getProjectFilesPath slug ++ oldP) = true
    case neg =>
      have hold' : existsE fs (getProjectFilesPath slug ++ oldP) = false := by
        simpa using hold
      rw [show renameProjectFile fs slug oldP newP = (false, fs) from by
        unfold renameProjectFile; simp [hold']] at htrue
      simp at htrue
    case pos =>
    by_cases hnew : existsE fs (getProjectFilesPath slug ++ newP) = true
    case pos =>
      rw [show renameProjectFile fs slug oldP newP = (false, fs) from by
        unfold renameProjectFile; simp [hold, hnew]] at htrue
      simp at htrue
    case neg =>
    have hnew' : existsE fs (getProjectFilesPath slug ++ newP) = false := by
      simpa using hnew
    cases hmk : mkdirp fs ((getProjectFilesPath slug ++ newP).dropLast) with
    | none =>
      rw [show renameProjectFile fs slug oldP newP = (false, fs) from by
        unfold renameProjectFile; simp [hold, hnew', hmk]] at htrue
      simp at htrue
    | some fs1 =>
      cases hre : renameEntry fs1 (getProjectFilesPath slug ++ oldP)
          (getProjectFilesPath slug ++ newP) with
      | none =>
        rw [show renameProjectFile fs slug oldP newP = (false, fs1) from by
          unfold renameProjectFile; simp [hold, hnew', hmk, hre]] at htrue
        simp at htrue
      | some fs2 =>
        have hr : renameProjectFile fs slug oldP newP = (true, fs2) := by
          unfold renameProjectFile
          simp [hold, hnew', hmk, hre]
        rw [hr]
        -- unpack the rename step
        unfold renameEntry at hre
        cases he : getEntry fs1 (getProjectFilesPath slug ++ oldP) with
        | none => rw [he] at hre; simp at hre
        | some e =>
          rw [he] at hre
          simp only [Option.some_bind] at hre
          cases hrm : removeEntry fs1 (getProjectFilesPath slug ++ oldP) with
          | none => rw [hrm] at hre; simp at hre
          | some fsr =>
            rw [hrm] at hre
            simp only [Option.some_bind] at hre
            have hgone : getEntry fsr (getProjectFilesPath slug ++ oldP) = none :=
              removeEntry_spec _ fs1 fsr hrm
            have hfn_ne : getProjectFilesPath slug ++ newP ≠ [] := by
              simp [getProjectFilesPath, getProjectPath, getWorkspaceProjectsPath]
            -- the mkdir path never reaches below the source entry
            have hcond : ∀ r, (getProjectFilesPath slug ++ newP).dropLast
                ≠ (getProjectFilesPath slug ++ oldP) ++ r := by
              intro r hc
              have hfn : getProjectFilesPath slug ++ newP
                  = (getProjectFilesPath slug ++ oldP)
                    ++ (r ++ [(getProjectFilesPath slug ++ newP).getLast hfn_ne]) := by
                conv_lhs => rw [← List.dropLast_append_getLast hfn_ne]
                rw [hc, List.append_assoc]
              rw [hfn] at hre
              have hsome := insertEntry_sub _ _ fsr fs2 e (by simp) hre
              rw [hgone] at hsome
              simp at hsome
            have he0 : getEntry fs1 (getProjectFilesPath slug ++ oldP)
                = getEntry fs (getProjectFilesPath slug ++ oldP) :=
              mkdirp_preserve _ fs fs1 _ hmk hcond
            -- the two full paths diverge
            have hdiv : divergeB (getProjectFilesPath slug ++ newP)
                (getProjectFilesPath slug ++ oldP) = true := by
              rcases divergeB_cases (getProjectFilesPath slug ++ newP)
                  (getProjectFilesPath slug ++ oldP) with hd | ⟨r, hpre⟩ | ⟨r, hpre⟩
              · exact hd
              · -- old path extends the new path: the destination would exist
                exfalso
                have hsome : (getEntry fs (getProjectFilesPath slug ++ newP)).isSome
                    = true := by
                  obtain ⟨eo, heo⟩ := Option.isSome_iff_exists.mp hold
                  rw [hpre, getEntry_append] at heo
                  cases hx : getEntry fs (getProjectFilesPath slug ++ newP) with
                  | none => rw [hx] at heo; simp at heo
                  | some y => rfl
                unfold existsE at hnew'
                rw [hsome] at hnew'
                exact Bool.true_eq_false.mp hnew'
              · -- new path extends the old path: the insert would have failed
                exfalso
                rcases List.eq_nil_or_concat r with rfl | ⟨r0, a, rfl⟩
                · rw [List.append_nil] at hpre
                  unfold existsE at hnew'
                  rw [hpre] at hnew'
                  obtain ⟨eo, heo⟩ := Option.isSome_iff_exists.mp hold
                  rw [heo] at hnew'
                  simp at hnew'
                · rw [hpre] at hre
                  have hsome := insertEntry_sub _ _ fsr fs2 e (by simp) hre
                  rw [hgone] at hsome
                  simp at hsome
            constructor
            · rw [insertEntry_spec _ fsr fs2 e hre, ← he0, he]
            · rw [insertEntry_preserve _ _ fsr fs2 e hdiv hre]
              exact hgone

/-- A project with a single file `files/a.txt`. -/
def renameFs : Entry :=
  Entry.dir (Listing.cons "projects" (Entry.dir (Listing.cons "p" (Entry.dir
    (Listing.cons "files"
      (Entry.dir (Listing.cons "a.txt" (Entry.file (FileData.text "hi")) Listing.nil))
      Listing.nil))
    Listing.nil)) Listing.nil)

/-- Witness for C7: a successful rename into a freshly created
subdirectory. -/
theorem renameProjectFile_spec_witness :
    (renameProjectFile renameFs "p" ["a.txt"] ["sub", "b.txt"]).1 = true
      ∧ getEntry (renameProjectFile renameFs "p" ["a.txt"] ["sub", "b.txt"]).2
          (getProjectFilesPath "p" ++ ["sub", "b.txt"])
        = getEntry renameFs (getProjectFilesPath "p" ++ ["a.txt"])
      ∧ getEntry (renameProjectFile renameFs "p" ["a.txt"] ["sub", "b.txt"]).2
          (getProjectFilesPath "p" ++ ["a.txt"]) = none := by
  have h := (renameProjectFile_spec renameFs "p" ["a.txt"] ["sub", "b.txt"]).2.2 rfl
  exact ⟨rfl, h.1, h.2⟩

end ProjectStore

